import Mathlib

/-!
# Peregrine single-value aggregator (core/aggregators/SingleValueAggregator.hh)

A shallow embedding of `SVAggregator` and `SVAggHandle`.

* The accumulator type `AggValueT` is a type `A` with `+` for `operator+=` and `0` for the
  value `reset()` leaves (and default construction gives).
* `ViewType` is a type `V`; `ViewType()` is `default`.
* Handle objects live in a heap (a list indexed by address).  An `AggHandle *` is an
  `Option Nat` (`none` is the null pointer).  The only `AggValueT *` the code ever forms is
  `&ah->other`, so a slot's buffer pointer is the address of the handle whose `other` field it
  points to.
* Undefined behaviour (a failed `assert`, an index outside a vector, a null or dangling
  dereference) is the result `none`.
-/

namespace Peregrine

universe u

/-- Modelled from the spec: the ownership flag type `flag_t` and its three named values, which
the source takes from `Barrier.hh` (not part of the sources at hand).  `ON()` is the state the
spec calls Armed, `WORKING()` is Merging and `OFF()` is Done. -/
inductive flag_t where
  | ON
  | WORKING
  | OFF
deriving DecidableEq, Repr

open flag_t

/-- The slot record `SVAggItem`: buffer pointer `v` and the `fresh` bit. -/
structure SVAggItem where
  v : Option Nat
  fresh : Bool
deriving DecidableEq, Repr

/-- The data members of `SVAggHandle` that take part in aggregation.  `agg` tells whether the
aggregator pointer is non-null. -/
structure SVAggHandle (A : Type u) where
  curr : A
  other : A
  id : Nat
  agg : Bool

/-- The data members of `SVAggregator`. -/
structure SVAggregator (A V : Type u) where
  global : A
  values : List SVAggItem
  handles : List (Option Nat)
  flag : flag_t
  viewer : A → V
  latest_result : V

/-- An aggregator together with the heap of handle objects its pointers refer to. -/
structure World (A V : Type u) where
  agg : SVAggregator A V
  heap : List (SVAggHandle A)

/-- The function `std::atomic<flag_t>::compare_exchange_strong(expected, desired)` run as one
atomic step: the result is (success, new flag, new value of `expected`).  On failure the value
read is written into `expected`. -/
def compare_exchange (flag expected desired : flag_t) : Bool × flag_t × flag_t :=
  if flag = expected then (true, desired, expected) else (false, flag, flag)

section Ops

variable {A V : Type u}

/-- The constructor `SVAggregator(nworkers, vf)`.  The member initialiser of `flag` is the brace
list `{false, false}`; which `flag_t` value that denotes is fixed by the absent declaration of
`flag_t`, so it is the argument `flag0`. -/
def SVAggregator.construct [Zero A] [Inhabited V] (nworkers : Nat) (vf : A → V)
    (flag0 : flag_t) : SVAggregator A V :=
  { global := 0
    values := List.replicate nworkers { v := none, fresh := false }
    handles := List.replicate nworkers none
    flag := flag0
    viewer := vf
    latest_result := default }

/-- The constructor `SVAggHandle(tid, a, b)`: both buffers are default constructed. -/
def SVAggHandle.construct [Zero A] (tid : Nat) (a : Bool) : SVAggHandle A :=
  { curr := 0, other := 0, id := tid, agg := a }

/-- The method `SVAggregator::stale`. -/
def SVAggregator.stale (s : SVAggregator A V) (id : Nat) : Option Bool :=
  if s.values.isEmpty then none
  else
    match s.values[id]? with
    | none => none
    | some item => some (!item.fresh)

/-- The method `SVAggregator::set_fresh`. -/
def SVAggregator.set_fresh (s : SVAggregator A V) (id : Nat) : Option (SVAggregator A V) :=
  match s.values[id]? with
  | none => none
  | some item => some { s with values := s.values.set id { v := item.v, fresh := true } }

/-- One iteration of the loop of `update_unchecked` on the slot `val`, with `g` the running value
of `global`. -/
def mergeSlot [Add A] (heap : List (SVAggHandle A)) (g : A) (val : SVAggItem) :
    Option (A × SVAggItem) :=
  if val.fresh then
    match val.v with
    | none => none
    | some i =>
      match heap[i]? with
      | none => none
      | some h => some (g + h.other, { v := some i, fresh := false })
  else some (g, val)

/-- The loop `for (auto &val : values)` of `update_unchecked`. -/
def mergeLoop [Add A] (heap : List (SVAggHandle A)) : A → List SVAggItem →
    Option (A × List SVAggItem)
  | g, [] => some (g, [])
  | g, val :: rest =>
    match mergeSlot heap g val with
    | none => none
    | some (g1, val1) =>
      match mergeLoop heap g1 rest with
      | none => none
      | some (g2, rest1) => some (g2, val1 :: rest1)

/-- The method `SVAggregator::update_unchecked`. -/
def SVAggregator.update_unchecked [Add A] (heap : List (SVAggHandle A)) (s : SVAggregator A V) :
    Option (SVAggregator A V) :=
  if s.values.isEmpty then none
  else
    match mergeLoop heap s.global s.values with
    | none => none
    | some (g, vs) => some { s with global := g, values := vs, latest_result := s.viewer g }

/-- The method `SVAggregator::update`. -/
def SVAggregator.update [Add A] (heap : List (SVAggHandle A)) (s : SVAggregator A V) :
    Option (SVAggregator A V) :=
  match compare_exchange s.flag ON WORKING with
  | (true, f, _) =>
    match SVAggregator.update_unchecked heap { s with flag := f } with
    | none => none
    | some s1 => some { s1 with flag := (compare_exchange s1.flag WORKING ON).2.1 }
  | (false, f, _) => some { s with flag := f }

/-- The method `SVAggregator::reset`. -/
def SVAggregator.reset [Zero A] [Inhabited V] (s : SVAggregator A V) : SVAggregator A V :=
  { s with
    global := 0
    latest_result := default
    flag := (compare_exchange s.flag OFF ON).2.1 }

/-- The method `SVAggregator::register_handle`, with `ah` the address of the handle. -/
def SVAggregator.register_handle (s : SVAggregator A V) (id : Nat) (ah : Nat) :
    Option (SVAggregator A V) :=
  if id < s.values.length ∧ id < s.handles.length then
    some { s with
      values := s.values.set id { v := some ah, fresh := false }
      handles := s.handles.set id (some ah) }
  else none

/-- The method `SVAggHandle::map` called on the handle at address `a`. -/
def SVAggHandle.map [Add A] (a : Nat) (v : A) (w : World A V) : Option (World A V) :=
  match w.heap[a]? with
  | none => none
  | some h => some { w with heap := w.heap.set a { h with curr := h.curr + v } }

/-- The method `SVAggHandle::reset` called on the handle at address `a` (no output manager). -/
def SVAggHandle.reset [Zero A] (a : Nat) (w : World A V) : Option (World A V) :=
  match w.heap[a]? with
  | none => none
  | some h => some { w with heap := w.heap.set a { h with curr := 0, other := 0 } }

/-- The method `SVAggHandle::read_value` called on the handle at address `a`. -/
def SVAggHandle.read_value (a : Nat) (w : World A V) : Option V :=
  match w.heap[a]? with
  | none => none
  | some h => if h.agg then some w.agg.latest_result else none

/-- The two statements `std::swap(curr, other); curr.reset();` of `submit`. -/
def swapReset [Zero A] (h : SVAggHandle A) : SVAggHandle A :=
  let h1 := { h with curr := h.other, other := h.curr }
  { h1 with curr := 0 }

/-- The method `SVAggHandle::submit` called on the handle at address `a` (no output manager). -/
def SVAggHandle.submit [Zero A] (a : Nat) (w : World A V) : Option (World A V) :=
  match w.heap[a]? with
  | none => none
  | some h =>
    if h.agg then
      match w.agg.stale h.id with
      | none => none
      | some true =>
        match w.agg.set_fresh h.id with
        | none => none
        | some s => some { agg := s, heap := w.heap.set a (swapReset h) }
      | some false => some w
    else some w

/-- The loop `for (auto &handle : handles) handle->submit();` of `get_result`. -/
def submitAll [Zero A] : List (Option Nat) → World A V → Option (World A V)
  | [], w => some w
  | none :: _, _ => none
  | some a :: rest, w =>
    match SVAggHandle.submit a w with
    | none => none
    | some w1 => submitAll rest w1

/-- The loop `while (!flag.compare_exchange_weak(expected, OFF()));` of `get_result`, run without
interference and without spurious failures, for at most `fuel` iterations.  The result is the
flag after the loop. -/
def spin : Nat → flag_t → flag_t → Option flag_t
  | 0, _, _ => none
  | fuel + 1, flag, expected =>
    match compare_exchange flag expected OFF with
    | (true, f, _) => some f
    | (false, f, e) => spin fuel f e

/-- The method `SVAggregator::get_result` (declared `void`), run without interference; `fuel`
bounds the iterations of the spin loop.  The result pairs the value returned with the state. -/
def SVAggregator.get_result [Add A] [Zero A] (fuel : Nat) (w : World A V) :
    Option (Unit × World A V) :=
  match spin fuel w.agg.flag ON with
  | none => none
  | some f =>
    match SVAggregator.update_unchecked w.heap { w.agg with flag := f } with
    | none => none
    | some s1 =>
      match submitAll s1.handles { agg := s1, heap := w.heap } with
      | none => none
      | some w2 =>
        match SVAggregator.update_unchecked w2.heap w2.agg with
        | none => none
        | some s3 => some ((), { agg := s3, heap := w2.heap })

/-- A call of `agg.update()` in the world `w`. -/
def World.update [Add A] (w : World A V) : Option (World A V) :=
  match w.agg.update w.heap with
  | none => none
  | some s => some { w with agg := s }

/-- A call of `agg.update_unchecked()` in the world `w`. -/
def World.update_unchecked [Add A] (w : World A V) : Option (World A V) :=
  match w.agg.update_unchecked w.heap with
  | none => none
  | some s => some { w with agg := s }

/-- A call of `agg.reset()` in the world `w`. -/
def World.reset [Zero A] [Inhabited V] (w : World A V) : World A V :=
  { w with agg := w.agg.reset }

/-- Worker `id` is registered: `handles[id]` is a live handle with that id and a non-null
aggregator pointer, and slot `id` points to that handle's `other` buffer. -/
def slotOk (w : World A V) (id : Nat) : Bool :=
  match w.agg.handles[id]?, w.agg.values[id]? with
  | some (some a), some item =>
    (item.v == some a) &&
      (match w.heap[a]? with
       | some h => (h.id == id) && h.agg
       | none => false)
  | _, _ => false

/-- All `n` handles are registered with an aggregator built for `n` workers. -/
def Registered (n : Nat) (w : World A V) : Prop :=
  w.agg.values.length = n ∧ w.agg.handles.length = n ∧ ∀ id, id < n → slotOk w id = true

instance (n : Nat) (w : World A V) : Decidable (Registered n w) := by
  unfold Registered; infer_instance

/-- The handle object registered for worker `id`. -/
def handleOf (w : World A V) (id : Nat) : Option (SVAggHandle A) :=
  match w.agg.handles[id]? with
  | some (some a) => w.heap[a]?
  | _ => none

/-- The freshness bit of slot `id`. -/
def freshOf (w : World A V) (id : Nat) : Bool :=
  match w.agg.values[id]? with
  | some item => item.fresh
  | none => false

/-- The buffers a merge pass reads: the `other` buffers the fresh slots point to, in slot
order. -/
def published (heap : List (SVAggHandle A)) (values : List SVAggItem) : List A :=
  (values.filter (fun item => item.fresh)).filterMap
    (fun item => (item.v.bind (fun i => heap[i]?)).map (fun h => h.other))

/-- A slot after the store that keeps its pointer and clears its `fresh` bit. -/
def clearFresh (item : SVAggItem) : SVAggItem := { item with fresh := false }

/-- A world with two registered workers: worker 0 has published 5 (slot fresh) and holds 2 in
its active buffer; worker 1 holds 7 in its active buffer and has published nothing. -/
def demoWorld (f : flag_t) : World Nat Nat :=
  { agg :=
      { global := 10
        values := [{ v := some 0, fresh := true }, { v := some 1, fresh := false }]
        handles := [some 0, some 1]
        flag := f
        viewer := fun g => g
        latest_result := 10 }
    heap := [{ curr := 2, other := 5, id := 0, agg := true },
             { curr := 7, other := 0, id := 1, agg := true }] }

/-- A world with `n` registered workers (the handle of worker `i` at address `i`), every buffer
and `global` at the identity, no slot fresh. -/
def startWorld (n : Nat) (f : flag_t) : World Nat Nat :=
  { agg :=
      { global := 0
        values := (List.range n).map (fun i => { v := some i, fresh := false })
        handles := (List.range n).map some
        flag := f
        viewer := fun g => g
        latest_result := 0 }
    heap := (List.range n).map (fun i => SVAggHandle.construct i true) }

/-- One call in a sequential run: `map(v)` or `submit()` on the handle of worker `id`, or
`update()` on the aggregator. -/
inductive Op (A : Type u) where
  | map (id : Nat) (v : A)
  | submit (id : Nat)
  | update

/-- The worker an operation is called on is one of the `n` workers. -/
def Op.valid (n : Nat) : Op A → Bool
  | Op.map id _ => decide (id < n)
  | Op.submit id => decide (id < n)
  | Op.update => true

/-- Run one call; the handle of worker `id` is the one in `handles[id]`. -/
def runOp [Add A] [Zero A] (w : World A V) : Op A → Option (World A V)
  | Op.map id v =>
    match w.agg.handles[id]? with
    | some (some a) => SVAggHandle.map a v w
    | _ => none
  | Op.submit id =>
    match w.agg.handles[id]? with
    | some (some a) => SVAggHandle.submit a w
    | _ => none
  | Op.update => w.update

/-- Run a sequence of calls, first to last. -/
def runOps [Add A] [Zero A] : List (Op A) → World A V → Option (World A V)
  | [], w => some w
  | op :: ops, w =>
    match runOp w op with
    | none => none
    | some w1 => runOps ops w1

/-- The values passed to `map` in a sequence of calls. -/
def mapped : List (Op A) → List A
  | [] => []
  | Op.map _ v :: ops => v :: mapped ops
  | _ :: ops => mapped ops

/-- What worker `id` holds that has not reached `global` yet: its active buffer, and its
published buffer while the slot is fresh. -/
def pendingOf [Add A] [Zero A] (w : World A V) (id : Nat) : A :=
  match handleOf w id with
  | some h => h.curr + (if freshOf w id then h.other else 0)
  | none => 0

/-- Everything mapped so far and not reset: `global` merged with what the `n` workers hold. -/
def total [AddCommMonoid A] (n : Nat) (w : World A V) : A :=
  w.agg.global + ∑ id in Finset.range n, pendingOf w id

/-- Scenario A: each of 4 workers maps 1 a hundred times, then each submits once. -/
def scenarioA : List (Op Nat) :=
  (List.range 4).flatMap (fun i => List.replicate 100 (Op.map i 1)) ++
    (List.range 4).map (fun i => Op.submit i)

/-- What a merge pass adds to `global` for slot `j`: the buffer the slot points to when the
slot is fresh, nothing otherwise. -/
def publishedAt [Zero A] (heap : List (SVAggHandle A)) (values : List SVAggItem) (j : Nat) : A :=
  match values[j]? with
  | some item =>
    if item.fresh then
      match item.v.bind (fun i => heap[i]?) with
      | some h => h.other
      | none => 0
    else 0
  | none => 0

/-- The active buffer of worker `id` is the identity. -/
def activeEmpty [Zero A] (w : World A V) (id : Nat) : Prop :=
  ∃ h, handleOf w id = some h ∧ h.curr = 0

/-- Modelled from the spec: the `flag_t` value that the member initialiser `{false, false}` of
the constructor denotes.  The declaration of `flag_t` (in `Barrier.hh`) is missing from the
sources; the spec says that construction "sets flag to the inactive armed state". -/
def initialFlag : flag_t := ON

/-- Register the handle at address `id` for worker `id`, for every listed `id` in turn. -/
def registerAll (s : SVAggregator A V) : List Nat → Option (SVAggregator A V)
  | [] => some s
  | id :: rest =>
    match s.register_handle id id with
    | none => none
    | some s1 => registerAll s1 rest

/-- Construction followed by registration: an aggregator for `n` workers, the handles of
workers `0 .. n-1` constructed (with their id and a non-null aggregator pointer) at addresses
`0 .. n-1`, and `register_handle` called for every id. -/
def setup [Zero A] [Inhabited V] (n : Nat) (vf : A → V) (flag0 : flag_t) :
    Option (World A V) :=
  match registerAll (SVAggregator.construct n vf flag0) (List.range n) with
  | none => none
  | some s => some { agg := s, heap := (List.range n).map (fun i => SVAggHandle.construct i true) }

/-- One call in a sequential run, on the handle of worker `id` or on the aggregator. -/
inductive Call (A : Type u) where
  /-- `SVAggHandle::map`. -/
  | map (id : Nat) (v : A)
  /-- `SVAggHandle::submit`. -/
  | submit (id : Nat)
  /-- `SVAggHandle::reset`. -/
  | handleReset (id : Nat)
  /-- `SVAggHandle::read_value`. -/
  | readValue (id : Nat)
  /-- `SVAggregator::update`. -/
  | update
  /-- `SVAggregator::get_result`. -/
  | getResult
  /-- `SVAggregator::reset`. -/
  | aggReset

/-- The worker a call is made on is one of the `n` workers. -/
def Call.valid (n : Nat) : Call A → Bool
  | Call.map id _ => decide (id < n)
  | Call.submit id => decide (id < n)
  | Call.handleReset id => decide (id < n)
  | Call.readValue id => decide (id < n)
  | _ => true

/-- The call is `map`, `submit`, `update` or `get_result`. -/
def Call.aggregates : Call A → Bool
  | Call.map _ _ => true
  | Call.submit _ => true
  | Call.update => true
  | Call.getResult => true
  | _ => false

/-- The call is made on a handle (`map`, `submit`, `reset`, `read_value`). -/
def Call.onHandle : Call A → Bool
  | Call.map _ _ => true
  | Call.submit _ => true
  | Call.handleReset _ => true
  | Call.readValue _ => true
  | _ => false

/-- Run one call without interference; the handle of worker `id` is the one in `handles[id]`,
and `fuel` bounds the spin loop of `get_result`.  The value a call returns is dropped. -/
def runCall [Add A] [Zero A] [Inhabited V] (fuel : Nat) (w : World A V) :
    Call A → Option (World A V)
  | Call.map id v =>
    match w.agg.handles[id]? with
    | some (some a) => SVAggHandle.map a v w
    | _ => none
  | Call.submit id =>
    match w.agg.handles[id]? with
    | some (some a) => SVAggHandle.submit a w
    | _ => none
  | Call.handleReset id =>
    match w.agg.handles[id]? with
    | some (some a) => SVAggHandle.reset a w
    | _ => none
  | Call.readValue id =>
    match w.agg.handles[id]? with
    | some (some a) =>
      match SVAggHandle.read_value a w with
      | some _ => some w
      | none => none
    | _ => none
  | Call.update => w.update
  | Call.getResult =>
    match SVAggregator.get_result fuel w with
    | some (_, w1) => some w1
    | none => none
  | Call.aggReset => some w.reset

/-- Run a sequence of calls, first to last. -/
def runCalls [Add A] [Zero A] [Inhabited V] (fuel : Nat) :
    List (Call A) → World A V → Option (World A V)
  | [], w => some w
  | c :: cs, w =>
    match runCall fuel w c with
    | none => none
    | some w1 => runCalls fuel cs w1

/-- The values passed to `map` in a sequence of calls. -/
def mappedBy : List (Call A) → List A
  | [] => []
  | Call.map _ v :: cs => v :: mappedBy cs
  | _ :: cs => mappedBy cs

/-- Bookkeeping for a run: the value `global` had at the end of the most recently completed
merge pass, `none` when no pass has completed since construction or the last aggregator
`reset()`.  `w` is the state before the call and `w1` the state after it. -/
def snapshotAfter (w w1 : World A V) (snap : Option A) : Call A → Option A
  | Call.update => if w.agg.flag = ON then some w1.agg.global else snap
  | Call.getResult => some w1.agg.global
  | Call.aggReset => none
  | _ => snap

/-- Run a sequence of calls and keep the bookkeeping of `snapshotAfter` alongside. -/
def runCallsSnap [Add A] [Zero A] [Inhabited V] (fuel : Nat) :
    List (Call A) → World A V → Option A → Option (World A V × Option A)
  | [], w, snap => some (w, snap)
  | c :: cs, w, snap =>
    match runCall fuel w c with
    | none => none
    | some w1 => runCallsSnap fuel cs w1 (snapshotAfter w w1 snap c)

/-- The View a reader is to see for a given bookkeeping value. -/
def viewOf [Inhabited V] (vf : A → V) : Option A → V
  | some g => vf g
  | none => default

/-- The two states agree on everything that can still reach `global` or `latest_result`: the
aggregators are equal, and every worker has the same active buffer in both and, while its slot
is fresh, the same published buffer. -/
def SameView (n : Nat) (w1 w2 : World A V) : Prop :=
  w1.agg = w2.agg ∧
    ∀ id, id < n → ∃ h1 h2, handleOf w1 id = some h1 ∧ handleOf w2 id = some h2 ∧
      h1.curr = h2.curr ∧ (freshOf w1 id = true → h1.other = h2.other)

/-- A short run touching every kind of call, on two workers. -/
def demoCalls : List (Call Nat) :=
  [Call.map 0 3, Call.submit 0, Call.readValue 1, Call.update, Call.map 1 4,
    Call.handleReset 0, Call.getResult, Call.aggReset, Call.map 0 1]

/-- A short run of calls on handles only. -/
def demoHandleCalls : List (Call Nat) :=
  [Call.map 0 3, Call.submit 0, Call.map 1 4]

/-- The state `startWorld 1 ON` after worker 0 has mapped 5: the value is in its active
buffer, unpublished. -/
def pendingWorld : World Nat Nat :=
  { agg := (startWorld 1 ON).agg
    heap := [{ curr := 5, other := 0, id := 0, agg := true }] }

/-- A drained state of two workers, as `get_result()` leaves `demoWorld`: `global` and
`latest_result` are 24, no slot is fresh, the active buffers are empty and the published
buffers still hold the merged values 2 and 7. -/
def drainedWorld : World Nat Nat :=
  { agg :=
      { global := 24
        values := [{ v := some 0, fresh := false }, { v := some 1, fresh := false }]
        handles := [some 0, some 1]
        flag := OFF
        viewer := fun g => g
        latest_result := 24 }
    heap := [{ curr := 0, other := 2, id := 0, agg := true },
             { curr := 0, other := 7, id := 1, agg := true }] }

/-- A short epoch of `map`, `submit`, `update` and `get_result` calls on two workers. -/
def epochCalls : List (Call Nat) :=
  [Call.map 0 3, Call.submit 0, Call.update, Call.map 1 4, Call.getResult, Call.map 0 1]

end Ops

/-! ## Interleaved calls of `update()` and `get_result()`

Threads take atomic steps on the shared flag.  Only the control skeleton of the two methods is
kept: each compare-and-swap is one step, and each call of `update_unchecked` (and the loop of
forced submits) is a control point a thread stays at for one step. -/

/-- Where a thread stands inside `update()` or `get_result()`. -/
inductive Pc where
  /-- Not inside a call. -/
  | idle
  /-- In `update()`, before `flag.compare_exchange_strong(expected, WORKING())`. -/
  | updateCas
  /-- In `update()`, inside `update_unchecked()`. -/
  | updateMerge
  /-- In `update()`, before `flag.compare_exchange_strong(e, ON())`. -/
  | updateRelease
  /-- In `get_result()`, before `flag.compare_exchange_weak(expected, OFF())`. -/
  | getSpin
  /-- In `get_result()`, inside the first `update_unchecked()`. -/
  | getMerge1
  /-- In `get_result()`, in the loop of `handle->submit()` calls. -/
  | getSubmit
  /-- In `get_result()`, inside the second `update_unchecked()`. -/
  | getMerge2
deriving DecidableEq, Repr

/-- A thread: its control point and its local variable `expected` (`e` in the second half of
`update()`). -/
structure Thread where
  pc : Pc
  expected : flag_t
deriving DecidableEq, Repr

/-- The shared flag and the threads. -/
structure Sys where
  flag : flag_t
  threads : List Thread
deriving DecidableEq, Repr

/-- What the scheduler may do next: let thread `t` enter `update()` or `get_result()`, let it
take its next step, or let its weak compare-and-swap fail spuriously. -/
inductive Event where
  | callUpdate (t : Nat)
  | callGetResult (t : Nat)
  | step (t : Nat)
  | spurious (t : Nat)
deriving DecidableEq, Repr

/-- The thread is inside `update_unchecked`. -/
def Thread.inMerge (th : Thread) : Bool :=
  th.pc = Pc.updateMerge || th.pc = Pc.getMerge1 || th.pc = Pc.getMerge2

/-- The next step of a thread that is inside a call, on the shared flag `flag`. -/
def Thread.next (flag : flag_t) (th : Thread) : Option (flag_t × Thread) :=
  match th.pc with
  | Pc.idle => none
  | Pc.updateCas =>
    match compare_exchange flag th.expected WORKING with
    | (true, f, e) => some (f, { pc := Pc.updateMerge, expected := e })
    | (false, f, e) => some (f, { pc := Pc.idle, expected := e })
  | Pc.updateMerge => some (flag, { pc := Pc.updateRelease, expected := WORKING })
  | Pc.updateRelease =>
    match compare_exchange flag th.expected ON with
    | (_, f, e) => some (f, { pc := Pc.idle, expected := e })
  | Pc.getSpin =>
    match compare_exchange flag th.expected OFF with
    | (true, f, e) => some (f, { pc := Pc.getMerge1, expected := e })
    | (false, f, e) => some (f, { pc := Pc.getSpin, expected := e })
  | Pc.getMerge1 => some (flag, { th with pc := Pc.getSubmit })
  | Pc.getSubmit => some (flag, { th with pc := Pc.getMerge2 })
  | Pc.getMerge2 => some (flag, { th with pc := Pc.idle })

/-- One scheduler event; `none` when the event is not enabled. -/
def Sys.step (s : Sys) : Event → Option Sys
  | Event.callUpdate t =>
    match s.threads[t]? with
    | some th =>
      if th.pc = Pc.idle then
        some { s with threads := s.threads.set t { pc := Pc.updateCas, expected := ON } }
      else none
    | none => none
  | Event.callGetResult t =>
    match s.threads[t]? with
    | some th =>
      if th.pc = Pc.idle then
        some { s with threads := s.threads.set t { pc := Pc.getSpin, expected := ON } }
      else none
    | none => none
  | Event.step t =>
    match s.threads[t]? with
    | some th =>
      match th.next s.flag with
      | some (f, th1) => some { flag := f, threads := s.threads.set t th1 }
      | none => none
    | none => none
  | Event.spurious t =>
    match s.threads[t]? with
    | some th => if th.pc = Pc.getSpin then some s else none
    | none => none

/-- A schedule, first event first. -/
def Sys.run : List Event → Sys → Option Sys
  | [], s => some s
  | ev :: rest, s =>
    match s.step ev with
    | none => none
    | some s1 => Sys.run rest s1

/-- The flag Armed and `k` threads, none inside a call. -/
def Sys.init (k : Nat) : Sys :=
  { flag := ON, threads := List.replicate k { pc := Pc.idle, expected := ON } }

/-- Thread 0 enters `update()` and takes ownership; thread 1 then enters `get_result()` and
runs its compare-and-swap twice. -/
def raceSchedule : List Event :=
  [Event.callUpdate 0, Event.step 0, Event.callGetResult 1, Event.step 1, Event.step 1]

end Peregrine

namespace Peregrine

open flag_t

section Basic

variable {A V : Type u}

theorem compare_exchange_ne {f e d : flag_t} (h : f ≠ e) :
    compare_exchange f e d = (false, f, f) := by
  simp [compare_exchange, h]

theorem compare_exchange_self (f d : flag_t) :
    compare_exchange f f d = (true, d, f) := by
  simp [compare_exchange]

theorem published_cons_stale (heap : List (SVAggHandle A)) (val : SVAggItem)
    (rest : List SVAggItem) (h : val.fresh = false) :
    published heap (val :: rest) = published heap rest := by
  simp [published, h]

theorem published_cons_fresh (heap : List (SVAggHandle A)) (val : SVAggItem)
    (rest : List SVAggItem) (i : Nat) (hd : SVAggHandle A) (h : val.fresh = true)
    (hv : val.v = some i) (hi : heap[i]? = some hd) :
    published heap (val :: rest) = hd.other :: published heap rest := by
  simp [published, h, hv, hi]

theorem clearFresh_of_stale (val : SVAggItem) (h : val.fresh = false) : clearFresh val = val := by
  cases val; simp_all [clearFresh]

/-- A merge pass over slots whose fresh entries all point to live handles adds the published
buffers to the running value in slot order and clears every freshness bit. -/
theorem mergeLoop_eq [AddMonoid A] (heap : List (SVAggHandle A)) :
    ∀ (vals : List SVAggItem) (g : A),
      (∀ item ∈ vals, item.fresh = true → ∃ i hd, item.v = some i ∧ heap[i]? = some hd) →
      mergeLoop heap g vals = some (g + (published heap vals).sum, vals.map clearFresh) := by
  intro vals
  induction vals with
  | nil => intro g _; simp [mergeLoop, published]
  | cons val rest ih =>
    intro g hb
    have hrest : ∀ item ∈ rest, item.fresh = true →
        ∃ i hd, item.v = some i ∧ heap[i]? = some hd :=
      fun item hm => hb item (List.mem_cons_of_mem _ hm)
    by_cases hf : val.fresh = true
    · obtain ⟨i, hd, hv, hi⟩ := hb val (List.mem_cons_self _ _) hf
      have hslot : mergeSlot heap g val = some (g + hd.other, { v := some i, fresh := false }) := by
        simp [mergeSlot, hf, hv, hi]
      have hc : clearFresh val = { v := some i, fresh := false } := by
        cases val; simp_all [clearFresh]
      simp only [mergeLoop, hslot, ih (g + hd.other) hrest,
        published_cons_fresh heap val rest i hd hf hv hi, List.sum_cons, List.map_cons, hc,
        add_assoc]
    · have hf2 : val.fresh = false := by simpa using hf
      have hslot : mergeSlot heap g val = some (g, val) := by
        simp [mergeSlot, hf2]
      simp only [mergeLoop, hslot, ih g hrest, published_cons_stale heap val rest hf2,
        List.map_cons, clearFresh_of_stale val hf2]

theorem update_unchecked_eq [AddMonoid A] (heap : List (SVAggHandle A)) (s : SVAggregator A V)
    (hne : s.values ≠ [])
    (hb : ∀ item ∈ s.values, item.fresh = true →
      ∃ i hd, item.v = some i ∧ heap[i]? = some hd) :
    s.update_unchecked heap = some
      { s with
        global := s.global + (published heap s.values).sum
        values := s.values.map clearFresh
        latest_result := s.viewer (s.global + (published heap s.values).sum) } := by
  have he : s.values.isEmpty = false := by
    cases hv : s.values with
    | nil => exact absurd hv hne
    | cons _ _ => rfl
  simp [SVAggregator.update_unchecked, he, mergeLoop_eq heap s.values s.global hb]

/-- A merge pass over slots whose fresh entries all point to live handles succeeds and clears
every freshness bit. -/
theorem mergeLoop_ok [Add A] (heap : List (SVAggHandle A)) :
    ∀ (vals : List SVAggItem) (g : A),
      (∀ item ∈ vals, item.fresh = true → ∃ i hd, item.v = some i ∧ heap[i]? = some hd) →
      ∃ g1, mergeLoop heap g vals = some (g1, vals.map clearFresh) := by
  intro vals
  induction vals with
  | nil => intro g _; exact ⟨g, rfl⟩
  | cons val rest ih =>
    intro g hb
    have hrest : ∀ item ∈ rest, item.fresh = true →
        ∃ i hd, item.v = some i ∧ heap[i]? = some hd :=
      fun item hm => hb item (List.mem_cons_of_mem _ hm)
    by_cases hf : val.fresh = true
    · obtain ⟨i, hd, hv, hi⟩ := hb val (List.mem_cons_self _ _) hf
      have hslot : mergeSlot heap g val = some (g + hd.other, { v := some i, fresh := false }) := by
        simp [mergeSlot, hf, hv, hi]
      have hc : clearFresh val = { v := some i, fresh := false } := by
        cases val; simp_all [clearFresh]
      obtain ⟨g1, hg1⟩ := ih (g + hd.other) hrest
      exact ⟨g1, by simp only [mergeLoop, hslot, hg1, List.map_cons, hc]⟩
    · have hf2 : val.fresh = false := by simpa using hf
      have hslot : mergeSlot heap g val = some (g, val) := by
        simp [mergeSlot, hf2]
      obtain ⟨g1, hg1⟩ := ih g hrest
      exact ⟨g1, by simp only [mergeLoop, hslot, hg1, List.map_cons, clearFresh_of_stale val hf2]⟩

theorem update_unchecked_ok [Add A] (heap : List (SVAggHandle A)) (s : SVAggregator A V)
    (hne : s.values ≠ [])
    (hb : ∀ item ∈ s.values, item.fresh = true →
      ∃ i hd, item.v = some i ∧ heap[i]? = some hd) :
    ∃ g1, s.update_unchecked heap = some
      { s with
        global := g1
        values := s.values.map clearFresh
        latest_result := s.viewer g1 } := by
  have he : s.values.isEmpty = false := by
    cases hv : s.values with
    | nil => exact absurd hv hne
    | cons _ _ => rfl
  obtain ⟨g1, hg1⟩ := mergeLoop_ok heap s.values s.global hb
  exact ⟨g1, by simp [SVAggregator.update_unchecked, he, hg1]⟩

theorem update_unchecked_flag [Add A] (heap : List (SVAggHandle A)) (s s1 : SVAggregator A V)
    (h : s.update_unchecked heap = some s1) : s1.flag = s.flag := by
  unfold SVAggregator.update_unchecked at h
  split at h
  · cases h
  · split at h
    · cases h
    · cases h; rfl

theorem update_unchecked_with_flag [Add A] (heap : List (SVAggHandle A)) (s : SVAggregator A V)
    (f : flag_t) :
    SVAggregator.update_unchecked heap { s with flag := f } =
      (s.update_unchecked heap).map (fun s1 => { s1 with flag := f }) := by
  unfold SVAggregator.update_unchecked
  by_cases he : s.values.isEmpty = true
  · simp [he]
  · simp only [he]
    cases mergeLoop heap s.global s.values with
    | none => simp
    | some r => simp

theorem getElem?_set_of_some {α : Type u} {l : List α} {i : Nat} {x : α} (y : α)
    (h : l[i]? = some x) : (l.set i y)[i]? = some y := by
  have hlt : i < l.length := by
    rcases List.getElem?_eq_some.mp h with ⟨hlt, _⟩
    exact hlt
  exact List.getElem?_set_self hlt

theorem stale_eq_some {s : SVAggregator A V} {id : Nat} {b : Bool}
    (h : s.stale id = some b) : ∃ item, s.values[id]? = some item ∧ item.fresh = !b := by
  unfold SVAggregator.stale at h
  split at h
  · cases h
  · split at h
    · cases h
    · rename_i item hi
      refine ⟨item, hi, ?_⟩
      cases h
      simp

theorem stale_of_getElem? (s : SVAggregator A V) (id : Nat) (item : SVAggItem)
    (h : s.values[id]? = some item) : s.stale id = some (!item.fresh) := by
  have hne : s.values.isEmpty = false := by
    cases hv : s.values with
    | nil => rw [hv] at h; simp at h
    | cons _ _ => rfl
  simp [SVAggregator.stale, hne, h]

theorem submit_of_fresh [Zero A] (w : World A V) (a : Nat) (h : SVAggHandle A)
    (hh : w.heap[a]? = some h) (hst : w.agg.stale h.id = some false) :
    SVAggHandle.submit a w = some w := by
  unfold SVAggHandle.submit
  simp only [hh, hst]
  split <;> rfl

theorem submit_of_stale [Zero A] (w : World A V) (a : Nat) (h : SVAggHandle A)
    (item : SVAggItem) (hh : w.heap[a]? = some h) (hagg : h.agg = true)
    (hi : w.agg.values[h.id]? = some item) (hf : item.fresh = false) :
    SVAggHandle.submit a w = some
      { agg := { w.agg with values := w.agg.values.set h.id { v := item.v, fresh := true } }
        heap := w.heap.set a (swapReset h) } := by
  have hst : w.agg.stale h.id = some true := by
    rw [stale_of_getElem? _ _ _ hi, hf]; rfl
  unfold SVAggHandle.submit
  simp only [hh, hagg, hst, SVAggregator.set_fresh, hi]
  rfl

theorem set_eq_self_of_getElem? {α : Type u} : ∀ (l : List α) (i : Nat) (x : α),
    l[i]? = some x → l.set i x = l
  | [], _, _, h => by simp at h
  | y :: l, 0, x, h => by
    simp at h
    simp [h]
  | y :: l, i + 1, x, h => by
    simp at h
    simp [set_eq_self_of_getElem? l i x h]

theorem map_clearFresh_of_stale (l : List SVAggItem) (h : ∀ it ∈ l, it.fresh = false) :
    l.map clearFresh = l := by
  induction l with
  | nil => rfl
  | cons x xs ih =>
    simp only [List.map_cons]
    rw [clearFresh_of_stale x (h x (List.mem_cons_self _ _)),
      ih (fun it hm => h it (List.mem_cons_of_mem _ hm))]

theorem published_of_stale (heap : List (SVAggHandle A)) (l : List SVAggItem)
    (h : ∀ it ∈ l, it.fresh = false) : published heap l = [] := by
  induction l with
  | nil => rfl
  | cons x xs ih =>
    rw [published_cons_stale heap x xs (h x (List.mem_cons_self _ _))]
    exact ih (fun it hm => h it (List.mem_cons_of_mem _ hm))

/-- With a single fresh slot, a merge pass reads exactly that slot's buffer. -/
theorem published_set_single (heap : List (SVAggHandle A)) (a : Nat) (hd : SVAggHandle A)
    (ha : heap[a]? = some hd) :
    ∀ (l : List SVAggItem) (id : Nat) (item : SVAggItem),
      (∀ it ∈ l, it.fresh = false) → l[id]? = some item →
      published heap (l.set id { v := some a, fresh := true }) = [hd.other]
  | [], _, _, _, h => by simp at h
  | x :: xs, 0, item, hs, _ => by
    simp only [List.set_cons_zero]
    rw [published_cons_fresh heap _ xs a hd rfl rfl ha,
      published_of_stale heap xs (fun it hm => hs it (List.mem_cons_of_mem _ hm))]
  | x :: xs, id + 1, item, hs, h => by
    simp only [List.set_cons_succ]
    rw [published_cons_stale heap x _ (hs x (List.mem_cons_self _ _))]
    exact published_set_single heap a hd ha xs id item
      (fun it hm => hs it (List.mem_cons_of_mem _ hm)) (by simpa using h)

theorem map_clearFresh_set (l : List SVAggItem) (id a : Nat) (item : SVAggItem)
    (hs : ∀ it ∈ l, it.fresh = false) (hi : l[id]? = some item) (hv : item.v = some a) :
    (l.set id { v := some a, fresh := true }).map clearFresh = l := by
  rw [List.map_set, map_clearFresh_of_stale l hs]
  have hc : clearFresh { v := some a, fresh := true } = item := by
    have hf := hs item (List.getElem?_mem hi)
    cases item
    simp_all [clearFresh]
  rw [hc]
  exact set_eq_self_of_getElem? l id item hi

theorem update_of_armed [Add A] (w : World A V) (h : w.agg.flag = ON) :
    w.update = w.update_unchecked := by
  simp only [World.update, World.update_unchecked, SVAggregator.update, h,
    compare_exchange_self, update_unchecked_with_flag]
  cases hu : w.agg.update_unchecked w.heap with
  | none => simp
  | some s1 =>
    have hfl : s1.flag = ON := by rw [update_unchecked_flag w.heap w.agg s1 hu, h]
    cases s1
    simp_all [compare_exchange]

theorem update_of_not_armed [Add A] (w : World A V) (h : w.agg.flag ≠ ON) :
    w.update = some w := by
  simp only [World.update, SVAggregator.update, compare_exchange_ne h]

theorem map_eq [Add A] (w : World A V) (a : Nat) (h : SVAggHandle A) (v : A)
    (hh : w.heap[a]? = some h) :
    SVAggHandle.map a v w = some { w with heap := w.heap.set a { h with curr := h.curr + v } } := by
  simp only [SVAggHandle.map, hh]

/-- A merge pass through `update()` right after a publication by the handle at `a`, all other
slots being stale. -/
theorem update_after_publish [AddMonoid A] (s : SVAggregator A V) (hp : List (SVAggHandle A))
    (a id : Nat) (hd : SVAggHandle A) (item : SVAggItem)
    (hs : ∀ it ∈ s.values, it.fresh = false) (hi : s.values[id]? = some item)
    (hv : item.v = some a) (ha : hp[a]? = some hd) (hfl : s.flag = ON) :
    World.update
        { agg := { s with values := s.values.set id { v := some a, fresh := true } }, heap := hp } =
      some
        { agg := { s with
                   global := s.global + hd.other
                   latest_result := s.viewer (s.global + hd.other) }
          heap := hp } := by
  have hlt : id < s.values.length := by
    rcases List.getElem?_eq_some.mp hi with ⟨hlt, _⟩
    exact hlt
  have hne : (s.values.set id { v := some a, fresh := true }) ≠ [] := by
    intro hnil
    have hlen := congrArg List.length hnil
    rw [List.length_set, List.length_nil] at hlen
    omega
  have hb : ∀ it ∈ s.values.set id { v := some a, fresh := true }, it.fresh = true →
      ∃ i h1, it.v = some i ∧ hp[i]? = some h1 := by
    intro it hm hf
    rcases List.mem_or_eq_of_mem_set hm with hm1 | rfl
    · rw [hs it hm1] at hf; cases hf
    · exact ⟨a, hd, rfl, ha⟩
  have hu := update_unchecked_eq hp
    { s with values := s.values.set id { v := some a, fresh := true } } hne hb
  simp only [published_set_single hp a hd ha s.values id item hs hi,
    map_clearFresh_set s.values id a item hs hi hv, List.sum_singleton] at hu
  have hfl2 : ({ s with values := s.values.set id { v := some a, fresh := true } } :
      SVAggregator A V).flag = ON := hfl
  rw [update_of_armed _ hfl2]
  simp only [World.update_unchecked, hu]

/-- From a state with no fresh slot and the flag Armed: the handle at `a` publishes, maps `y`,
is held back by its second `submit()`, and `update()` then merges exactly the first
publication. -/
theorem publish_map_blocked_update [AddMonoid A] (s : SVAggregator A V)
    (hp : List (SVAggHandle A)) (a : Nat) (h : SVAggHandle A) (item : SVAggItem) (y : A)
    (hh : hp[a]? = some h) (hagg : h.agg = true) (hi : s.values[h.id]? = some item)
    (hv : item.v = some a) (hs : ∀ it ∈ s.values, it.fresh = false) (hfl : s.flag = ON) :
    ∃ w2 w3 hp3,
      SVAggHandle.submit a { agg := s, heap := hp } = some w2 ∧
      SVAggHandle.map a y w2 = some w3 ∧
      SVAggHandle.submit a w3 = some w3 ∧
      w3.update = some
        { agg := { s with
                   global := s.global + h.curr
                   latest_result := s.viewer (s.global + h.curr) }
          heap := hp3 } ∧
      hp3[a]? = some { curr := 0 + y, other := h.curr, id := h.id, agg := h.agg } := by
  have hf : item.fresh = false := hs item (List.getElem?_mem hi)
  have e2 := submit_of_stale { agg := s, heap := hp } a h item hh hagg hi hf
  rw [hv] at e2
  have hh2 : (hp.set a (swapReset h))[a]? = some (swapReset h) := getElem?_set_of_some _ hh
  have e3 := map_eq
    { agg := { s with values := s.values.set h.id { v := some a, fresh := true } }
      heap := hp.set a (swapReset h) } a (swapReset h) y hh2
  have hh3 : ((hp.set a (swapReset h)).set a
      { swapReset h with curr := (swapReset h).curr + y })[a]? =
      some { swapReset h with curr := (swapReset h).curr + y } := getElem?_set_of_some _ hh2
  have hslot : (s.values.set h.id { v := some a, fresh := true })[h.id]? =
      some { v := some a, fresh := true } := getElem?_set_of_some _ hi
  refine ⟨_, _, _, e2, e3, ?_, ?_, hh3⟩
  · refine submit_of_fresh _ a _ hh3 ?_
    exact stale_of_getElem? { s with values := _ } _ _ hslot
  · exact update_after_publish s _ a h.id _ item hs hi hv hh3 hfl

/-- From a state with no fresh slot and the flag Armed: the handle at `a` publishes and
`update()` merges the publication. -/
theorem publish_update [AddMonoid A] (s : SVAggregator A V)
    (hp : List (SVAggHandle A)) (a : Nat) (h : SVAggHandle A) (item : SVAggItem)
    (hh : hp[a]? = some h) (hagg : h.agg = true) (hi : s.values[h.id]? = some item)
    (hv : item.v = some a) (hs : ∀ it ∈ s.values, it.fresh = false) (hfl : s.flag = ON) :
    ∃ w2 w3,
      SVAggHandle.submit a { agg := s, heap := hp } = some w2 ∧
      w2.update = some w3 ∧
      w3.agg.global = s.global + h.curr := by
  have hf : item.fresh = false := hs item (List.getElem?_mem hi)
  have e2 := submit_of_stale { agg := s, heap := hp } a h item hh hagg hi hf
  rw [hv] at e2
  have hh2 : (hp.set a (swapReset h))[a]? = some (swapReset h) := getElem?_set_of_some _ hh
  exact ⟨_, _, e2, update_after_publish s _ a h.id _ item hs hi hv hh2 hfl, rfl⟩

end Basic

section Invariant

variable {A V : Type u}

theorem slotOk_iff (w : World A V) (id : Nat) :
    slotOk w id = true ↔
      ∃ a h item, w.agg.handles[id]? = some (some a) ∧ w.agg.values[id]? = some item ∧
        item.v = some a ∧ w.heap[a]? = some h ∧ h.id = id ∧ h.agg = true := by
  unfold slotOk
  constructor
  · intro hs
    split at hs
    · rename_i a item hha hvi
      simp only [Bool.and_eq_true, beq_iff_eq] at hs
      obtain ⟨hv, hrest⟩ := hs
      split at hrest
      · rename_i h hh
        simp only [Bool.and_eq_true, beq_iff_eq] at hrest
        exact ⟨a, h, item, hha, hvi, hv, hh, hrest.1, hrest.2⟩
      · cases hrest
    · cases hs
  · rintro ⟨a, h, item, hha, hvi, hv, hh, hid, hagg⟩
    simp [hha, hvi, hv, hh, hid, hagg]

theorem Registered.lookup {n : Nat} {w : World A V} (hr : Registered n w) {id : Nat}
    (hid : id < n) :
    ∃ a h item, w.agg.handles[id]? = some (some a) ∧ w.agg.values[id]? = some item ∧
      item.v = some a ∧ w.heap[a]? = some h ∧ h.id = id ∧ h.agg = true :=
  (slotOk_iff w id).mp (hr.2.2 id hid)

/-- Registration only depends on the handle table, the slot pointers and the `id` and `agg`
members of the handle objects. -/
theorem Registered.transfer {n : Nat} {w w1 : World A V} (hr : Registered n w)
    (hh : w1.agg.handles = w.agg.handles)
    (hlen : w1.agg.values.length = w.agg.values.length)
    (hv : ∀ (j : Nat) (it : SVAggItem), w.agg.values[j]? = some it →
      ∃ it1 : SVAggItem, w1.agg.values[j]? = some it1 ∧ it1.v = it.v)
    (hp : ∀ (b : Nat) (hb : SVAggHandle A), w.heap[b]? = some hb →
      ∃ hb1 : SVAggHandle A, w1.heap[b]? = some hb1 ∧ hb1.id = hb.id ∧ hb1.agg = hb.agg) :
    Registered n w1 := by
  refine ⟨hlen.trans hr.1, by rw [hh]; exact hr.2.1, ?_⟩
  intro id hid
  obtain ⟨a, h, item, hha, hvi, hiv, hhp, hhid, hagg⟩ := hr.lookup hid
  obtain ⟨it1, hvi1, hiv1⟩ := hv id item hvi
  obtain ⟨hb1, hhp1, hid1, hagg1⟩ := hp a h hhp
  refine (slotOk_iff w1 id).mpr ⟨a, hb1, it1, ?_, hvi1, ?_, hhp1, ?_, ?_⟩
  · rw [hh]; exact hha
  · rw [hiv1]; exact hiv
  · rw [hid1]; exact hhid
  · rw [hagg1]; exact hagg

theorem set_lookup {α : Type u} {β : Type} (f : α → β) (l : List α) (i : Nat) (x y : α)
    (hx : l[i]? = some x) (hf : f y = f x) :
    ∀ (j : Nat) (z : α), l[j]? = some z → ∃ z1 : α, (l.set i y)[j]? = some z1 ∧ f z1 = f z := by
  intro j z hz
  by_cases hji : i = j
  · subst hji
    rw [hx] at hz
    cases hz
    exact ⟨y, getElem?_set_of_some y hx, hf⟩
  · exact ⟨z, by rw [List.getElem?_set_ne hji]; exact hz, rfl⟩

theorem heap_set_lookup (hp : List (SVAggHandle A)) (a : Nat) (h h1 : SVAggHandle A)
    (hh : hp[a]? = some h) (hid : h1.id = h.id) (hagg : h1.agg = h.agg) :
    ∀ (b : Nat) (hb : SVAggHandle A), hp[b]? = some hb →
      ∃ hb1 : SVAggHandle A, (hp.set a h1)[b]? = some hb1 ∧ hb1.id = hb.id ∧ hb1.agg = hb.agg := by
  intro b hb hbb
  by_cases hab : a = b
  · subst hab
    rw [hh] at hbb
    cases hbb
    exact ⟨h1, getElem?_set_of_some h1 hh, hid, hagg⟩
  · exact ⟨hb, by rw [List.getElem?_set_ne hab]; exact hbb, rfl, rfl⟩

/-- Two registered workers with the same handle address are the same worker. -/
theorem Registered.addr_inj {n : Nat} {w : World A V} (_hr : Registered n w) {i j a : Nat}
    {hi hj : SVAggHandle A} (h1 : w.heap[a]? = some hi) (h2 : w.heap[a]? = some hj)
    (e1 : hi.id = i) (e2 : hj.id = j) : i = j := by
  rw [h1] at h2
  cases h2
  rw [← e1, ← e2]

theorem handleOf_eq (w : World A V) (id a : Nat) (ha : w.agg.handles[id]? = some (some a)) :
    handleOf w id = w.heap[a]? := by
  simp only [handleOf, ha]

theorem freshOf_eq (w : World A V) (id : Nat) (item : SVAggItem)
    (hi : w.agg.values[id]? = some item) : freshOf w id = item.fresh := by
  simp only [freshOf, hi]

/-- The handle of worker `j` after the handle object at `a` (that of worker `id`) is
overwritten. -/
theorem handleOf_set {n : Nat} {w : World A V} (hr : Registered n w) (s1 : SVAggregator A V)
    (hs1 : s1.handles = w.agg.handles) (id a : Nat) (h1 : SVAggHandle A)
    (ha : w.agg.handles[id]? = some (some a)) (hid : id < n) (j : Nat) (hj : j < n) :
    handleOf { agg := s1, heap := w.heap.set a h1 } j =
      if j = id then some h1 else handleOf w j := by
  obtain ⟨a2, h2, it2, hha2, _, _, hhp2, hid2, _⟩ := hr.lookup hid
  have ha2 : a2 = a := by
    rw [ha] at hha2
    cases hha2
    rfl
  subst ha2
  obtain ⟨b, hb, itb, hhab, _, _, hhpb, hidb, _⟩ := hr.lookup hj
  have hhab1 : ({ agg := s1, heap := w.heap.set a2 h1 } : World A V).agg.handles[j]? =
      some (some b) := by
    show s1.handles[j]? = some (some b)
    rw [hs1]; exact hhab
  rw [handleOf_eq _ j b hhab1, handleOf_eq w j b hhab]
  by_cases hji : j = id
  · subst hji
    have hba : b = a2 := by
      rw [hhab] at ha
      cases ha
      rfl
    subst hba
    simp only [if_true]
    exact getElem?_set_of_some h1 hhp2
  · simp only [hji, if_false]
    have hne : a2 ≠ b := by
      intro hab
      subst hab
      exact hji (hr.addr_inj hhpb hhp2 hidb hid2)
    exact List.getElem?_set_ne hne

theorem handleOf_same_heap (w : World A V) (s1 : SVAggregator A V)
    (hs1 : s1.handles = w.agg.handles) (j : Nat) :
    handleOf { agg := s1, heap := w.heap } j = handleOf w j := by
  simp only [handleOf, hs1]

theorem freshOf_set (s : SVAggregator A V) (hp hp1 : List (SVAggHandle A)) (id : Nat)
    (item item1 : SVAggItem) (hi : s.values[id]? = some item) (j : Nat) :
    freshOf { agg := { s with values := s.values.set id item1 }, heap := hp1 } j =
      if j = id then item1.fresh else freshOf { agg := s, heap := hp } j := by
  by_cases hji : j = id
  · subst hji
    simp only [freshOf, getElem?_set_of_some item1 hi, if_true]
  · simp only [freshOf, hji, if_false, List.getElem?_set_ne (Ne.symm hji)]

theorem sum_range_update [AddCommMonoid A] (n id : Nat) (f g : Nat → A) (v : A) (hid : id < n)
    (hne : ∀ j, j < n → j ≠ id → g j = f j) (he : g id = f id + v) :
    ∑ j in Finset.range n, g j = (∑ j in Finset.range n, f j) + v := by
  have hm : id ∈ Finset.range n := Finset.mem_range.mpr hid
  have hrest : ∑ j in (Finset.range n).erase id, g j = ∑ j in (Finset.range n).erase id, f j := by
    refine Finset.sum_congr rfl ?_
    intro j hj
    exact hne j (Finset.mem_range.mp (Finset.mem_of_mem_erase hj)) (Finset.ne_of_mem_erase hj)
  rw [← Finset.add_sum_erase _ g hm, ← Finset.add_sum_erase _ f hm, he, hrest]
  exact add_right_comm _ _ _

theorem pendingOf_eq [Add A] [Zero A] (w : World A V) (id : Nat) (h : SVAggHandle A)
    (hh : handleOf w id = some h) :
    pendingOf w id = h.curr + (if freshOf w id then h.other else 0) := by
  simp only [pendingOf, hh]

/-- The effect of `map(v)` by worker `id` on a registered state. -/
theorem map_step [AddCommMonoid A] {n : Nat} {w : World A V} (hr : Registered n w) (id a : Nat)
    (v : A) (hid : id < n) (ha : w.agg.handles[id]? = some (some a)) :
    ∃ w1, SVAggHandle.map a v w = some w1 ∧ Registered n w1 ∧ w1.agg = w.agg ∧
      total n w1 = total n w + v := by
  obtain ⟨a2, h, item, hha, hvi, hiv, hhp, hhid, hagg⟩ := hr.lookup hid
  have ha2 : a2 = a := by
    rw [ha] at hha
    cases hha
    rfl
  subst ha2
  refine ⟨_, map_eq w a2 h v hhp, ?_, rfl, ?_⟩
  · exact hr.transfer rfl rfl (fun j it hj => ⟨it, hj, rfl⟩)
      (heap_set_lookup w.heap a2 h _ hhp rfl rfl)
  · have hview : ∀ j, j < n →
        handleOf { agg := w.agg, heap := w.heap.set a2 { h with curr := h.curr + v } } j =
          if j = id then some { h with curr := h.curr + v } else handleOf w j :=
      fun j hj => handleOf_set hr w.agg rfl id a2 _ ha hid j hj
    have hwid : handleOf w id = some h := by rw [handleOf_eq w id a2 ha]; exact hhp
    simp only [total]
    rw [add_assoc]
    congr 1
    refine sum_range_update n id _ _ v hid ?_ ?_
    · intro j hj hji
      simp only [pendingOf, hview j hj, hji, if_false]
      rfl
    · have h1 := hview id hid
      simp only [if_true] at h1
      rw [pendingOf_eq _ id _ h1, pendingOf_eq w id h hwid]
      show h.curr + v + (if freshOf w id then h.other else 0) = _
      exact add_right_comm _ _ _

/-- The effect of `submit()` by worker `id` on a registered state. -/
theorem submit_reg [Zero A] {n : Nat} {w : World A V} (hr : Registered n w)
    (id a : Nat) (hid : id < n) (ha : w.agg.handles[id]? = some (some a)) :
    ∃ w1, SVAggHandle.submit a w = some w1 ∧ Registered n w1 ∧
      w1.agg.handles = w.agg.handles ∧ w1.agg.global = w.agg.global ∧
      w1.agg.flag = w.agg.flag ∧ w1.agg.viewer = w.agg.viewer ∧
      w1.agg.latest_result = w.agg.latest_result ∧
      (∀ j, j < n → (freshOf w j = false ∨ activeEmpty w j) →
        (freshOf w1 j = false ∨ activeEmpty w1 j)) ∧
      ((freshOf w id = false ∨ activeEmpty w id) → activeEmpty w1 id) ∧
      (∀ j, j < n → activeEmpty w j → activeEmpty w1 j) := by
  obtain ⟨a2, h, item, hha, hvi, hiv, hhp, hhid, hagg⟩ := hr.lookup hid
  have ha2 : a2 = a := by
    rw [ha] at hha
    cases hha
    rfl
  subst ha2
  subst hhid
  have hfw : freshOf w h.id = item.fresh := freshOf_eq w h.id item hvi
  cases hf : item.fresh with
  | true =>
    have hst : w.agg.stale h.id = some false := by
      rw [stale_of_getElem? w.agg h.id item hvi, hf]; rfl
    refine ⟨w, submit_of_fresh w a2 h hhp hst, hr, rfl, rfl, rfl, rfl, rfl,
      fun _ _ hg => hg, ?_, fun _ _ hg => hg⟩
    intro hg
    rcases hg with hg | hg
    · rw [hfw, hf] at hg; cases hg
    · exact hg
  | false =>
    have hview : ∀ j, j < n →
        handleOf { agg := { w.agg with values := w.agg.values.set h.id { v := item.v, fresh := true } },
                   heap := w.heap.set a2 (swapReset h) } j =
          if j = h.id then some (swapReset h) else handleOf w j :=
      fun j hj => handleOf_set hr _ rfl h.id a2 _ ha hid j hj
    have hfresh : ∀ j,
        freshOf { agg := { w.agg with values := w.agg.values.set h.id { v := item.v, fresh := true } },
                  heap := w.heap.set a2 (swapReset h) } j =
          if j = h.id then true else freshOf w j :=
      fun j => freshOf_set w.agg w.heap _ h.id item _ hvi j
    have hself := hview h.id hid
    simp only [if_true] at hself
    have hempty : activeEmpty
        { agg := { w.agg with values := w.agg.values.set h.id { v := item.v, fresh := true } },
          heap := w.heap.set a2 (swapReset h) } h.id := ⟨_, hself, rfl⟩
    refine ⟨_, submit_of_stale w a2 h item hhp hagg hvi hf, ?_, rfl, rfl, rfl, rfl, rfl,
      ?_, fun _ => hempty, ?_⟩
    · refine hr.transfer rfl (by simp) ?_ ?_
      · exact set_lookup (fun x : SVAggItem => x.v) w.agg.values h.id item _ hvi rfl
      · exact heap_set_lookup w.heap a2 h (swapReset h) hhp rfl rfl
    · intro j hj hg
      by_cases hji : j = h.id
      · subst hji
        exact Or.inr hempty
      · rcases hg with hg | ⟨hx, hx1, hx2⟩
        · left
          rw [hfresh j]
          simp only [hji, if_false]
          exact hg
        · right
          refine ⟨hx, ?_, hx2⟩
          rw [hview j hj]
          simp only [hji, if_false]
          exact hx1
    · intro j hj hg
      by_cases hji : j = h.id
      · subst hji
        exact hempty
      · obtain ⟨hx, hx1, hx2⟩ := hg
        refine ⟨hx, ?_, hx2⟩
        rw [hview j hj]
        simp only [hji, if_false]
        exact hx1

/-- A `submit()` moves data from the active to the published buffer and loses none. -/
theorem submit_total [AddCommMonoid A] {n : Nat} {w : World A V} (hr : Registered n w)
    (id a : Nat) (hid : id < n) (ha : w.agg.handles[id]? = some (some a)) (w1 : World A V)
    (hs : SVAggHandle.submit a w = some w1) : total n w1 = total n w := by
  obtain ⟨a2, h, item, hha, hvi, hiv, hhp, hhid, hagg⟩ := hr.lookup hid
  have ha2 : a2 = a := by
    rw [ha] at hha
    cases hha
    rfl
  subst ha2
  subst hhid
  have hwid : handleOf w h.id = some h := by rw [handleOf_eq w h.id a2 ha]; exact hhp
  have hfw : freshOf w h.id = item.fresh := freshOf_eq w h.id item hvi
  cases hf : item.fresh with
  | true =>
    have hst : w.agg.stale h.id = some false := by
      rw [stale_of_getElem? w.agg h.id item hvi, hf]; rfl
    rw [submit_of_fresh w a2 h hhp hst] at hs
    cases hs
    rfl
  | false =>
    rw [submit_of_stale w a2 h item hhp hagg hvi hf] at hs
    cases hs
    have hview : ∀ j, j < n →
        handleOf { agg := { w.agg with values := w.agg.values.set h.id { v := item.v, fresh := true } },
                   heap := w.heap.set a2 (swapReset h) } j =
          if j = h.id then some (swapReset h) else handleOf w j :=
      fun j hj => handleOf_set hr _ rfl h.id a2 _ ha hid j hj
    have hfresh : ∀ j,
        freshOf { agg := { w.agg with values := w.agg.values.set h.id { v := item.v, fresh := true } },
                  heap := w.heap.set a2 (swapReset h) } j =
          if j = h.id then true else freshOf w j :=
      fun j => freshOf_set w.agg w.heap _ h.id item _ hvi j
    have hself := hview h.id hid
    simp only [if_true] at hself
    simp only [total]
    congr 1
    have hsum := sum_range_update n h.id (fun j => pendingOf w j)
      (fun j => pendingOf
        { agg := { w.agg with
                   values := w.agg.values.set h.id { v := item.v, fresh := true } },
          heap := w.heap.set a2 (swapReset h) } j) 0 hid ?_ ?_
    · rw [hsum, add_zero]
    · intro j hj hji
      simp only [pendingOf, hview j hj, hfresh j, hji, if_false]
    · show pendingOf _ h.id = pendingOf w h.id + 0
      rw [pendingOf_eq _ h.id _ hself, pendingOf_eq w h.id h hwid, hfresh h.id, hfw, hf]
      simp [swapReset]

theorem publishedAt_succ [Zero A] (heap : List (SVAggHandle A)) (x : SVAggItem)
    (xs : List SVAggItem) (j : Nat) :
    publishedAt heap (x :: xs) (j + 1) = publishedAt heap xs j := by
  simp [publishedAt]

theorem published_cons_sum [AddCommMonoid A] (heap : List (SVAggHandle A)) (x : SVAggItem)
    (xs : List SVAggItem) :
    (published heap (x :: xs)).sum = (published heap xs).sum + publishedAt heap (x :: xs) 0 := by
  cases hf : x.fresh with
  | false =>
    rw [published_cons_stale heap x xs hf]
    simp [publishedAt, hf]
  | true =>
    cases hv : x.v with
    | none => simp [published, publishedAt, hf, hv]
    | some i =>
      cases hi : heap[i]? with
      | none => simp [published, publishedAt, hf, hv, hi]
      | some hd =>
        rw [published_cons_fresh heap x xs i hd hf hv hi, List.sum_cons, add_comm]
        simp [publishedAt, hf, hv, hi]

/-- What a merge pass adds to `global`, slot by slot. -/
theorem published_sum [AddCommMonoid A] (heap : List (SVAggHandle A)) :
    ∀ l : List SVAggItem,
      (published heap l).sum = ∑ j in Finset.range l.length, publishedAt heap l j
  | [] => by simp [published]
  | x :: xs => by
    rw [List.length_cons, Finset.sum_range_succ', published_cons_sum, published_sum heap xs]
    simp only [publishedAt_succ]

theorem freshOf_clear (w : World A V) (s1 : SVAggregator A V)
    (hv : s1.values = w.agg.values.map clearFresh) (j : Nat) :
    freshOf { agg := s1, heap := w.heap } j = false := by
  simp only [freshOf, hv, List.getElem?_map]
  cases w.agg.values[j]? with
  | none => rfl
  | some it => rfl

/-- What slot `j` hands over in a merge pass is what worker `j` no longer holds afterwards. -/
theorem pending_after_merge [AddCommMonoid A] {n : Nat} {w : World A V} (hr : Registered n w)
    (s1 : SVAggregator A V) (hh : s1.handles = w.agg.handles)
    (hv : s1.values = w.agg.values.map clearFresh) (j : Nat) (hjn : j < n) :
    publishedAt w.heap w.agg.values j + pendingOf { agg := s1, heap := w.heap } j =
      pendingOf w j := by
  obtain ⟨a, h, item, hha, hvi, hiv, hhp, _, _⟩ := hr.lookup hjn
  have hwj : handleOf w j = some h := by rw [handleOf_eq w j a hha]; exact hhp
  have hwj1 : handleOf { agg := s1, heap := w.heap } j = some h := by
    rw [handleOf_same_heap w s1 hh j]; exact hwj
  rw [pendingOf_eq _ j h hwj1, pendingOf_eq w j h hwj, freshOf_clear w s1 hv j,
    freshOf_eq w j item hvi]
  simp only [publishedAt, hvi, hiv, Option.bind_some, hhp]
  cases item.fresh <;> simp [add_comm, hhp]

/-- The effect of a merge pass on a registered state. -/
theorem merge_step [AddCommMonoid A] {n : Nat} {w : World A V} (hr : Registered n w)
    (hn : 1 ≤ n) :
    ∃ s1, w.agg.update_unchecked w.heap = some s1 ∧
      Registered n { agg := s1, heap := w.heap } ∧
      total n { agg := s1, heap := w.heap } = total n w ∧
      s1.handles = w.agg.handles ∧ s1.flag = w.agg.flag ∧ s1.viewer = w.agg.viewer ∧
      s1.latest_result = s1.viewer s1.global ∧
      (∀ j, freshOf { agg := s1, heap := w.heap } j = false) := by
  have hne : w.agg.values ≠ [] := by
    intro hnil
    have hlen := hr.1
    rw [hnil] at hlen
    simp at hlen
    omega
  have hb : ∀ item ∈ w.agg.values, item.fresh = true →
      ∃ i hd, item.v = some i ∧ w.heap[i]? = some hd := by
    intro item hm _
    obtain ⟨j, hj⟩ := List.mem_iff_getElem?.mp hm
    have hjn : j < n := by
      rcases List.getElem?_eq_some.mp hj with ⟨hlt, _⟩
      rw [hr.1] at hlt
      exact hlt
    obtain ⟨a, h, item2, _, hvi, hiv, hhp, _, _⟩ := hr.lookup hjn
    rw [hj] at hvi
    cases hvi
    exact ⟨a, h, hiv, hhp⟩
  have hP := published_sum w.heap w.agg.values
  rw [hr.1] at hP
  have hu := update_unchecked_eq w.heap w.agg hne hb
  generalize (published w.heap w.agg.values).sum = P at hP hu
  refine ⟨_, hu, ?_, ?_, rfl, rfl, rfl, rfl, fun j => freshOf_clear w _ rfl j⟩
  · refine hr.transfer rfl (by simp) ?_ (fun b hb hbb => ⟨hb, hbb, rfl, rfl⟩)
    intro j it hj
    refine ⟨clearFresh it, ?_, rfl⟩
    simp only [List.getElem?_map, hj, Option.map_some']
  · have hsum : P + ∑ j in Finset.range n, pendingOf
        { agg := { w.agg with
                   global := w.agg.global + P
                   values := w.agg.values.map clearFresh
                   latest_result := w.agg.viewer (w.agg.global + P) },
          heap := w.heap } j = ∑ j in Finset.range n, pendingOf w j := by
      rw [hP, ← Finset.sum_add_distrib]
      refine Finset.sum_congr rfl ?_
      intro j hj
      exact pending_after_merge hr
        { w.agg with
          global := w.agg.global + P
          values := w.agg.values.map clearFresh
          latest_result := w.agg.viewer (w.agg.global + P) } rfl rfl j (Finset.mem_range.mp hj)
    simp only [total]
    rw [add_assoc, hsum]

/-- A merge pass on a registered state succeeds, whatever the accumulator type. -/
theorem merge_reg [Add A] {n : Nat} {w : World A V} (hr : Registered n w) (hn : 1 ≤ n) :
    ∃ s1, w.agg.update_unchecked w.heap = some s1 ∧
      Registered n { agg := s1, heap := w.heap } ∧
      s1.handles = w.agg.handles ∧ s1.flag = w.agg.flag ∧ s1.viewer = w.agg.viewer ∧
      s1.latest_result = s1.viewer s1.global ∧
      (∀ j, freshOf { agg := s1, heap := w.heap } j = false) := by
  have hne : w.agg.values ≠ [] := by
    intro hnil
    have hlen := hr.1
    rw [hnil] at hlen
    simp at hlen
    omega
  have hb : ∀ item ∈ w.agg.values, item.fresh = true →
      ∃ i hd, item.v = some i ∧ w.heap[i]? = some hd := by
    intro item hm _
    obtain ⟨j, hj⟩ := List.mem_iff_getElem?.mp hm
    have hjn : j < n := by
      rcases List.getElem?_eq_some.mp hj with ⟨hlt, _⟩
      rw [hr.1] at hlt
      exact hlt
    obtain ⟨a, h, item2, _, hvi, hiv, hhp, _, _⟩ := hr.lookup hjn
    rw [hj] at hvi
    cases hvi
    exact ⟨a, h, hiv, hhp⟩
  obtain ⟨g1, hu⟩ := update_unchecked_ok w.heap w.agg hne hb
  refine ⟨_, hu, ?_, rfl, rfl, rfl, rfl, fun j => freshOf_clear w _ rfl j⟩
  refine hr.transfer rfl (by simp) ?_ (fun b hb hbb => ⟨hb, hbb, rfl, rfl⟩)
  intro j it hj
  refine ⟨clearFresh it, ?_, rfl⟩
  simp only [List.getElem?_map, hj, Option.map_some']

theorem merge_total [AddCommMonoid A] {n : Nat} {w : World A V} (hr : Registered n w)
    (hn : 1 ≤ n) (s1 : SVAggregator A V) (hu : w.agg.update_unchecked w.heap = some s1) :
    total n { agg := s1, heap := w.heap } = total n w := by
  obtain ⟨s2, hu2, _, ht2, _⟩ := merge_step hr hn
  rw [hu] at hu2
  cases hu2
  exact ht2

theorem spin_two (k : Nat) (f : flag_t) : spin (k + 2) f ON = some OFF := by
  cases f <;> simp [spin, compare_exchange]

/-- The loop of forced `submit()` calls of `get_result`, over handle pointers `l` that all
belong to registered workers. -/
theorem submitAll_reg [Zero A] {n : Nat} :
    ∀ (l : List (Option Nat)) (w : World A V), Registered n w →
      (∀ x ∈ l, ∃ id, id < n ∧ w.agg.handles[id]? = some x) →
      (∀ j, j < n → (freshOf w j = false ∨ activeEmpty w j)) →
      ∃ w1, submitAll l w = some w1 ∧ Registered n w1 ∧
        w1.agg.handles = w.agg.handles ∧ w1.agg.global = w.agg.global ∧
        w1.agg.flag = w.agg.flag ∧ w1.agg.viewer = w.agg.viewer ∧
        w1.agg.latest_result = w.agg.latest_result ∧
        (∀ id, id < n → ∀ x ∈ l, w.agg.handles[id]? = some x → activeEmpty w1 id) ∧
        (∀ j, j < n → activeEmpty w j → activeEmpty w1 j)
  | [], w, hr, _, _ =>
    ⟨w, rfl, hr, rfl, rfl, rfl, rfl, rfl, fun _ _ x hx => absurd hx (List.not_mem_nil x),
      fun _ _ hj => hj⟩
  | x :: rest, w, hr, hl, hg => by
    obtain ⟨id0, hid0, hx0⟩ := hl x (List.mem_cons_self _ _)
    obtain ⟨a, _, _, hha, _, _, _, _, _⟩ := hr.lookup hid0
    have hxa : x = some a := by
      rw [hha] at hx0
      cases hx0
      rfl
    subst hxa
    obtain ⟨w2, hs2, hr2, hh2, hg2, hf2, hv2, hl2, hgood2, _, hkeep2⟩ :=
      submit_reg hr id0 a hid0 hha
    have hl3 : ∀ y ∈ rest, ∃ id, id < n ∧ w2.agg.handles[id]? = some y := by
      intro y hy
      obtain ⟨id, hid, hy1⟩ := hl y (List.mem_cons_of_mem _ hy)
      exact ⟨id, hid, by rw [hh2]; exact hy1⟩
    obtain ⟨w1, hs1, hr1, hh1, hg1, hf1, hv1, hl1, hdone1, hkeep1⟩ :=
      submitAll_reg rest w2 hr2 hl3 (fun j hj => hgood2 j hj (hg j hj))
    refine ⟨w1, ?_, hr1, hh1.trans hh2, hg1.trans hg2, hf1.trans hf2,
      hv1.trans hv2, hl1.trans hl2, ?_, fun j hj he => hkeep1 j hj (hkeep2 j hj he)⟩
    · simp only [submitAll, hs2, hs1]
    · intro id hid y hy hyid
      rcases List.mem_cons.mp hy with hyx | hyr
      · subst hyx
        obtain ⟨w3, hs3, _, _, _, _, _, _, _, hdone3, _⟩ := submit_reg hr id a hid hyid
        rw [hs2] at hs3
        cases hs3
        exact hkeep1 id hid (hdone3 (hg id hid))
      · exact hdone1 id hid y hyr (by rw [hh2]; exact hyid)

theorem submitAll_total [AddCommMonoid A] {n : Nat} :
    ∀ (l : List (Option Nat)) (w w1 : World A V), Registered n w →
      (∀ x ∈ l, ∃ id, id < n ∧ w.agg.handles[id]? = some x) →
      submitAll l w = some w1 → total n w1 = total n w
  | [], w, w1, _, _, hs => by
    simp only [submitAll] at hs
    cases hs
    rfl
  | x :: rest, w, w1, hr, hl, hs => by
    obtain ⟨id0, hid0, hx0⟩ := hl x (List.mem_cons_self _ _)
    obtain ⟨a, _, _, hha, _, _, _, _, _⟩ := hr.lookup hid0
    have hxa : x = some a := by
      rw [hha] at hx0
      cases hx0
      rfl
    subst hxa
    obtain ⟨w2, hs2, hr2, hh2, _⟩ := submit_reg hr id0 a hid0 hha
    have ht2 := submit_total hr id0 a hid0 hha w2 hs2
    have hl3 : ∀ y ∈ rest, ∃ id, id < n ∧ w2.agg.handles[id]? = some y := by
      intro y hy
      obtain ⟨id, hid, hy1⟩ := hl y (List.mem_cons_of_mem _ hy)
      exact ⟨id, hid, by rw [hh2]; exact hy1⟩
    simp only [submitAll, hs2] at hs
    rw [submitAll_total rest w2 w1 hr2 hl3 hs, ht2]

/-- With no slot fresh and every active buffer empty, everything mapped is in `global`. -/
theorem total_of_drained [AddCommMonoid A] {n : Nat} {w : World A V}
    (hf : ∀ j, j < n → freshOf w j = false) (he : ∀ j, j < n → activeEmpty w j) :
    total n w = w.agg.global := by
  simp only [total]
  have hz : ∑ id in Finset.range n, pendingOf w id = 0 := by
    refine Finset.sum_eq_zero ?_
    intro j hj
    have hjn := Finset.mem_range.mp hj
    obtain ⟨h, hh, hc⟩ := he j hjn
    rw [pendingOf_eq w j h hh, hf j hjn, hc]
    simp
  rw [hz, add_zero]

theorem handles_registered {n : Nat} {w : World A V} (hr : Registered n w) :
    ∀ x ∈ w.agg.handles, ∃ id, id < n ∧ w.agg.handles[id]? = some x := by
  intro x hx
  obtain ⟨id, hid⟩ := List.mem_iff_getElem?.mp hx
  refine ⟨id, ?_, hid⟩
  rcases List.getElem?_eq_some.mp hid with ⟨hlt, _⟩
  have hlen := hr.2.1
  omega

/-- The drain `get_result()` on a registered state, run without interference, stage by stage:
the spin loop ends within two iterations, the first merge pass gives `s1`, the forced
`submit()` calls give `w2`, and the second merge pass gives the aggregator `s3` of the final
state. -/
theorem get_result_reg [Add A] [Zero A] {n : Nat} {w : World A V} (hr : Registered n w)
    (hn : 1 ≤ n) (fuel : Nat) (hfuel : 2 ≤ fuel) :
    ∃ s1 w2 s3,
      SVAggregator.update_unchecked w.heap { w.agg with flag := OFF } = some s1 ∧
      submitAll s1.handles { agg := s1, heap := w.heap } = some w2 ∧
      SVAggregator.update_unchecked w2.heap w2.agg = some s3 ∧
      SVAggregator.get_result fuel w = some ((), { agg := s3, heap := w2.heap }) ∧
      Registered n { agg := s1, heap := w.heap } ∧ Registered n w2 ∧
      Registered n { agg := s3, heap := w2.heap } ∧
      s3.flag = OFF ∧ s3.latest_result = s3.viewer s3.global ∧ s3.viewer = w.agg.viewer ∧
      (∀ j, j < n → freshOf { agg := s3, heap := w2.heap } j = false) ∧
      (∀ j, j < n → activeEmpty { agg := s3, heap := w2.heap } j) := by
  obtain ⟨k, rfl⟩ : ∃ k, fuel = k + 2 := ⟨fuel - 2, by omega⟩
  have hr0 : Registered n { agg := { w.agg with flag := OFF }, heap := w.heap } := hr
  obtain ⟨s1, hu1, hr1, hh1, hf1, hv1, _, hfr1⟩ := merge_reg hr0 hn
  obtain ⟨w2, hs2, hr2, hh2, _, hf2, hv2, _, hdone2, _⟩ :=
    submitAll_reg s1.handles { agg := s1, heap := w.heap } hr1 (handles_registered hr1)
      (fun j _ => Or.inl (hfr1 j))
  obtain ⟨s3, hu3, hr3, hh3, hf3, hv3, hl3, hfr3⟩ := merge_reg hr2 hn
  have hempty : ∀ j, j < n → activeEmpty { agg := s3, heap := w2.heap } j := by
    intro j hj
    obtain ⟨a, _, _, hha, _, _, _, _, _⟩ := hr1.lookup hj
    obtain ⟨h, hh, hc⟩ := hdone2 j hj (some a) (List.getElem?_mem hha) hha
    exact ⟨h, by rw [handleOf_same_heap w2 s3 hh3 j]; exact hh, hc⟩
  refine ⟨s1, w2, s3, hu1, hs2, hu3, ?_, hr1, hr2, hr3, ?_, hl3, ?_, fun j _ => hfr3 j, hempty⟩
  · simp only [SVAggregator.get_result, spin_two, hu1, hs2, hu3]
  · rw [hf3, hf2]
    exact hf1
  · rw [hv3, hv2]
    exact hv1

/-- The drain `get_result()` on a registered state, run without interference: it returns (two
iterations of the spin loop are enough), and leaves in `global` everything that was in `global`
or held by a worker. -/
theorem get_result_spec [AddCommMonoid A] {n : Nat} {w : World A V} (hr : Registered n w)
    (hn : 1 ≤ n) (fuel : Nat) (hfuel : 2 ≤ fuel) :
    ∃ w1, SVAggregator.get_result fuel w = some ((), w1) ∧ Registered n w1 ∧
      w1.agg.global = total n w ∧ w1.agg.flag = OFF ∧
      w1.agg.latest_result = w1.agg.viewer w1.agg.global ∧
      w1.agg.viewer = w.agg.viewer ∧
      (∀ j, j < n → freshOf w1 j = false) ∧ (∀ j, j < n → activeEmpty w1 j) := by
  obtain ⟨s1, w2, s3, hu1, hs2, hu3, hget, hr1, hr2, hr3, hf3, hl3, hv3, hfr3, hempty⟩ :=
    get_result_reg hr hn fuel hfuel
  have hr0 : Registered n { agg := { w.agg with flag := OFF }, heap := w.heap } := hr
  have ht1 := merge_total hr0 hn s1 hu1
  have ht2 := submitAll_total s1.handles { agg := s1, heap := w.heap } w2 hr1
    (handles_registered hr1) hs2
  have ht3 := merge_total hr2 hn s3 hu3
  refine ⟨_, hget, hr3, ?_, hf3, hl3, hv3, hfr3, hempty⟩
  rw [← total_of_drained hfr3 hempty, ht3, ht2, ht1]
  rfl

/-- A run of `map`, `submit` and `update` calls on a registered state returns, keeps all
handles registered, and adds exactly the mapped values to what the system holds. -/
theorem runOps_spec [AddCommMonoid A] {n : Nat} (hn : 1 ≤ n) :
    ∀ (ops : List (Op A)) (w : World A V), Registered n w →
      (∀ op ∈ ops, Op.valid n op = true) →
      ∃ w1, runOps ops w = some w1 ∧ Registered n w1 ∧
        total n w1 = total n w + (mapped ops).sum
  | [], w, hr, _ => ⟨w, rfl, hr, by simp [mapped]⟩
  | Op.map id v :: ops, w, hr, hv => by
    have hid : id < n := by
      have := hv (Op.map id v) (List.mem_cons_self _ _)
      simpa [Op.valid] using this
    obtain ⟨a, _, _, hha, _, _, _, _, _⟩ := hr.lookup hid
    obtain ⟨w2, hm2, hr2, _, ht2⟩ := map_step hr id a v hid hha
    obtain ⟨w1, hs1, hr1, ht1⟩ :=
      runOps_spec hn ops w2 hr2 (fun op hop => hv op (List.mem_cons_of_mem _ hop))
    refine ⟨w1, ?_, hr1, ?_⟩
    · simp only [runOps, runOp, hha, hm2, hs1]
    · rw [ht1, ht2]
      simp only [mapped, List.sum_cons]
      exact add_assoc _ _ _
  | Op.submit id :: ops, w, hr, hv => by
    have hid : id < n := by
      have := hv (Op.submit id) (List.mem_cons_self _ _)
      simpa [Op.valid] using this
    obtain ⟨a, _, _, hha, _, _, _, _, _⟩ := hr.lookup hid
    obtain ⟨w2, hm2, hr2, _⟩ := submit_reg hr id a hid hha
    have ht2 := submit_total hr id a hid hha w2 hm2
    obtain ⟨w1, hs1, hr1, ht1⟩ :=
      runOps_spec hn ops w2 hr2 (fun op hop => hv op (List.mem_cons_of_mem _ hop))
    refine ⟨w1, ?_, hr1, ?_⟩
    · simp only [runOps, runOp, hha, hm2, hs1]
    · rw [ht1, ht2]
      simp only [mapped]
  | Op.update :: ops, w, hr, hv => by
    have hstep : ∃ w2, w.update = some w2 ∧ Registered n w2 ∧ total n w2 = total n w := by
      by_cases hfl : w.agg.flag = ON
      · obtain ⟨s1, hu1, hr1, ht1, _⟩ := merge_step hr hn
        refine ⟨{ agg := s1, heap := w.heap }, ?_, hr1, ht1⟩
        rw [update_of_armed w hfl]
        simp only [World.update_unchecked, hu1]
      · exact ⟨w, update_of_not_armed w hfl, hr, rfl⟩
    obtain ⟨w2, hm2, hr2, ht2⟩ := hstep
    obtain ⟨w1, hs1, hr1, ht1⟩ :=
      runOps_spec hn ops w2 hr2 (fun op hop => hv op (List.mem_cons_of_mem _ hop))
    refine ⟨w1, ?_, hr1, ?_⟩
    · simp only [runOps, runOp, hm2, hs1]
    · rw [ht1, ht2]
      simp only [mapped]

end Invariant

section Runs

variable {A V : Type u}

theorem mergeSlot_some [Add A] (heap : List (SVAggHandle A)) (g g1 : A) (val val1 : SVAggItem)
    (h : mergeSlot heap g val = some (g1, val1)) : val1 = clearFresh val := by
  unfold mergeSlot at h
  split at h
  · rename_i hf
    split at h
    · cases h
    · rename_i i hv
      split at h
      · cases h
      · cases h
        cases val
        simp_all [clearFresh]
  · rename_i hf
    cases h
    have hf2 : val.fresh = false := by simpa using hf
    exact (clearFresh_of_stale val hf2).symm

/-- A merge loop that comes to its end has cleared every freshness bit and kept every
pointer. -/
theorem mergeLoop_some [Add A] (heap : List (SVAggHandle A)) :
    ∀ (vals : List SVAggItem) (g g1 : A) (vals1 : List SVAggItem),
      mergeLoop heap g vals = some (g1, vals1) → vals1 = vals.map clearFresh
  | [], g, g1, vals1, h => by
    simp only [mergeLoop] at h
    cases h
    rfl
  | val :: rest, g, g1, vals1, h => by
    simp only [mergeLoop] at h
    cases hs : mergeSlot heap g val with
    | none => rw [hs] at h; cases h
    | some r =>
      obtain ⟨g2, val2⟩ := r
      rw [hs] at h
      simp only at h
      cases hl : mergeLoop heap g2 rest with
      | none => rw [hl] at h; cases h
      | some r2 =>
        obtain ⟨g3, rest3⟩ := r2
        rw [hl] at h
        cases h
        rw [List.map_cons, ← mergeSlot_some heap g g2 val val2 hs,
          ← mergeLoop_some heap rest g2 g1 rest3 hl]

theorem update_unchecked_some [Add A] (heap : List (SVAggHandle A)) (s s1 : SVAggregator A V)
    (h : s.update_unchecked heap = some s1) :
    s.values ≠ [] ∧
      s1 = { s with
             global := s1.global
             values := s.values.map clearFresh
             latest_result := s.viewer s1.global } := by
  unfold SVAggregator.update_unchecked at h
  split at h
  · cases h
  · rename_i he
    have hne : s.values ≠ [] := by
      intro hnil
      rw [hnil] at he
      exact he rfl
    cases hl : mergeLoop heap s.global s.values with
    | none => rw [hl] at h; cases h
    | some r =>
      obtain ⟨g1, vals1⟩ := r
      rw [hl] at h
      cases h
      refine ⟨hne, ?_⟩
      rw [mergeLoop_some heap s.values s.global g1 vals1 hl]

theorem mergeLoop_stale [Add A] (heap : List (SVAggHandle A)) :
    ∀ (vals : List SVAggItem) (g : A), (∀ it ∈ vals, it.fresh = false) →
      mergeLoop heap g vals = some (g, vals)
  | [], g, _ => rfl
  | val :: rest, g, hs => by
    have hf : val.fresh = false := hs val (List.mem_cons_self _ _)
    have hslot : mergeSlot heap g val = some (g, val) := by simp [mergeSlot, hf]
    simp only [mergeLoop, hslot,
      mergeLoop_stale heap rest g (fun it hm => hs it (List.mem_cons_of_mem _ hm))]

theorem clearFresh_stale (l : List SVAggItem) : ∀ it ∈ l.map clearFresh, it.fresh = false := by
  intro it hm
  obtain ⟨x, _, rfl⟩ := List.mem_map.mp hm
  rfl

/-- A second merge pass right after a first one changes nothing. -/
theorem update_unchecked_idem [Add A] (heap : List (SVAggHandle A)) (s s1 : SVAggregator A V)
    (h : s.update_unchecked heap = some s1) : s1.update_unchecked heap = some s1 := by
  obtain ⟨hne, hs1⟩ := update_unchecked_some heap s s1 h
  have hv : s1.values = s.values.map clearFresh := by rw [hs1]
  have hne1 : s1.values.isEmpty = false := by
    rw [hv]
    cases hvals : s.values with
    | nil => exact absurd hvals hne
    | cons _ _ => rfl
  have hst : ∀ it ∈ s1.values, it.fresh = false := by
    rw [hv]; exact clearFresh_stale s.values
  have hl : s1.latest_result = s1.viewer s1.global := by rw [hs1]
  simp only [SVAggregator.update_unchecked, hne1, mergeLoop_stale heap s1.values s1.global hst]
  cases s1
  simp_all

/-- What `submit()` by worker `id` does to the handle and the freshness bit of every worker. -/
theorem submit_view [Zero A] {n : Nat} {w : World A V} (hr : Registered n w)
    (id a : Nat) (hid : id < n) (ha : w.agg.handles[id]? = some (some a)) :
    ∃ w1 h, SVAggHandle.submit a w = some w1 ∧ handleOf w id = some h ∧
      (freshOf w id = true → w1 = w) ∧
      (freshOf w id = false →
        freshOf w1 id = true ∧ handleOf w1 id = some (swapReset h) ∧
        ∃ item, w.agg.values[id]? = some item ∧
          w1.agg = { w.agg with values := w.agg.values.set id { v := item.v, fresh := true } }) ∧
      (∀ j, j < n → j ≠ id → freshOf w1 j = freshOf w j ∧ handleOf w1 j = handleOf w j) := by
  obtain ⟨a2, h, item, hha, hvi, hiv, hhp, hhid, hagg⟩ := hr.lookup hid
  have ha2 : a2 = a := by
    rw [ha] at hha
    cases hha
    rfl
  subst ha2
  subst hhid
  have hwid : handleOf w h.id = some h := by rw [handleOf_eq w h.id a2 ha]; exact hhp
  have hfw : freshOf w h.id = item.fresh := freshOf_eq w h.id item hvi
  cases hf : item.fresh with
  | true =>
    have hst : w.agg.stale h.id = some false := by
      rw [stale_of_getElem? w.agg h.id item hvi, hf]; rfl
    refine ⟨w, h, submit_of_fresh w a2 h hhp hst, hwid, fun _ => rfl, ?_,
      fun _ _ _ => ⟨rfl, rfl⟩⟩
    intro hg
    rw [hfw, hf] at hg
    cases hg
  | false =>
    have hview : ∀ j, j < n →
        handleOf { agg := { w.agg with values := w.agg.values.set h.id { v := item.v, fresh := true } },
                   heap := w.heap.set a2 (swapReset h) } j =
          if j = h.id then some (swapReset h) else handleOf w j :=
      fun j hj => handleOf_set hr _ rfl h.id a2 _ ha hid j hj
    have hfresh : ∀ j,
        freshOf { agg := { w.agg with values := w.agg.values.set h.id { v := item.v, fresh := true } },
                  heap := w.heap.set a2 (swapReset h) } j =
          if j = h.id then true else freshOf w j :=
      fun j => freshOf_set w.agg w.heap _ h.id item _ hvi j
    refine ⟨_, h, submit_of_stale w a2 h item hhp hagg hvi hf, hwid, ?_, ?_, ?_⟩
    · intro hg
      rw [hfw, hf] at hg
      cases hg
    · intro _
      refine ⟨?_, ?_, item, hvi, rfl⟩
      · rw [hfresh h.id]; simp
      · rw [hview h.id hid]; simp
    · intro j hj hji
      refine ⟨?_, ?_⟩
      · rw [hfresh j]; simp [hji]
      · rw [hview j hj]; simp [hji]

/-- Where worker `j` stands in the loop of forced submits, `w0` being the state at the start of
the loop: its slot is fresh and holds what its active buffer held, and its active buffer is
empty. -/
theorem submit_keeps_published [Zero A] {n : Nat} (w0 : World A V) {w : World A V}
    (hr : Registered n w)
    (id a : Nat) (hid : id < n) (ha : w.agg.handles[id]? = some (some a)) (w1 : World A V)
    (hs : SVAggHandle.submit a w = some w1) :
    (∀ j, j < n →
        ((freshOf w j = false ∧ handleOf w j = handleOf w0 j) ∨
          (freshOf w j = true ∧ ∃ h0, handleOf w0 j = some h0 ∧
            handleOf w j = some (swapReset h0))) →
        ((freshOf w1 j = false ∧ handleOf w1 j = handleOf w0 j) ∨
          (freshOf w1 j = true ∧ ∃ h0, handleOf w0 j = some h0 ∧
            handleOf w1 j = some (swapReset h0)))) ∧
      (((freshOf w id = false ∧ handleOf w id = handleOf w0 id) ∨
          (freshOf w id = true ∧ ∃ h0, handleOf w0 id = some h0 ∧
            handleOf w id = some (swapReset h0))) →
        (freshOf w1 id = true ∧ ∃ h0, handleOf w0 id = some h0 ∧
          handleOf w1 id = some (swapReset h0))) ∧
      (∀ j, j < n →
        (freshOf w j = true ∧ ∃ h0, handleOf w0 j = some h0 ∧
          handleOf w j = some (swapReset h0)) →
        (freshOf w1 j = true ∧ ∃ h0, handleOf w0 j = some h0 ∧
          handleOf w1 j = some (swapReset h0))) := by
  obtain ⟨w2, h, hs2, hwid, hfr, hst, hoth⟩ := submit_view hr id a hid ha
  rw [hs] at hs2
  cases hs2
  have hself : ((freshOf w id = false ∧ handleOf w id = handleOf w0 id) ∨
      (freshOf w id = true ∧ ∃ h0, handleOf w0 id = some h0 ∧
        handleOf w id = some (swapReset h0))) →
      (freshOf w1 id = true ∧ ∃ h0, handleOf w0 id = some h0 ∧
        handleOf w1 id = some (swapReset h0)) := by
    intro hg
    rcases hg with ⟨hf, hh⟩ | ⟨hf, hh⟩
    · obtain ⟨hf1, hh1, _⟩ := hst hf
      exact ⟨hf1, h, by rw [← hh]; exact hwid, hh1⟩
    · rw [hfr hf]
      exact ⟨hf, hh⟩
  have hkeep : ∀ j, j < n →
      (freshOf w j = true ∧ ∃ h0, handleOf w0 j = some h0 ∧
        handleOf w j = some (swapReset h0)) →
      (freshOf w1 j = true ∧ ∃ h0, handleOf w0 j = some h0 ∧
        handleOf w1 j = some (swapReset h0)) := by
    intro j hj hg
    by_cases hji : j = id
    · subst hji
      exact hself (Or.inr hg)
    · obtain ⟨e1, e2⟩ := hoth j hj hji
      rw [e1, e2]
      exact hg
  refine ⟨?_, hself, hkeep⟩
  intro j hj hg
  by_cases hji : j = id
  · subst hji
    exact Or.inr (hself hg)
  · obtain ⟨e1, e2⟩ := hoth j hj hji
    rw [e1, e2]
    exact hg

/-- After the loop of forced submits over handle pointers `l`, started in `w0`, every worker
that was stale at the start and whose handle is in `l` has published its whole active
buffer. -/
theorem submitAll_publishes [Zero A] {n : Nat} (w0 : World A V) :
    ∀ (l : List (Option Nat)) (w w1 : World A V), Registered n w →
      (∀ x ∈ l, ∃ id, id < n ∧ w.agg.handles[id]? = some x) →
      (∀ j, j < n →
        ((freshOf w j = false ∧ handleOf w j = handleOf w0 j) ∨
          (freshOf w j = true ∧ ∃ h0, handleOf w0 j = some h0 ∧
            handleOf w j = some (swapReset h0)))) →
      submitAll l w = some w1 →
      (∀ j, j < n →
        ((freshOf w1 j = false ∧ handleOf w1 j = handleOf w0 j) ∨
          (freshOf w1 j = true ∧ ∃ h0, handleOf w0 j = some h0 ∧
            handleOf w1 j = some (swapReset h0)))) ∧
      (∀ j, j < n →
        (freshOf w j = true ∧ ∃ h0, handleOf w0 j = some h0 ∧
          handleOf w j = some (swapReset h0)) →
        (freshOf w1 j = true ∧ ∃ h0, handleOf w0 j = some h0 ∧
          handleOf w1 j = some (swapReset h0))) ∧
      (∀ id, id < n → ∀ x ∈ l, w.agg.handles[id]? = some x →
        (freshOf w1 id = true ∧ ∃ h0, handleOf w0 id = some h0 ∧
          handleOf w1 id = some (swapReset h0)))
  | [], w, w1, _, _, hg, hs => by
    simp only [submitAll] at hs
    cases hs
    exact ⟨hg, fun _ _ h => h, fun _ _ x hx => absurd hx (List.not_mem_nil x)⟩
  | x :: rest, w, w1, hr, hl, hg, hs => by
    obtain ⟨id0, hid0, hx0⟩ := hl x (List.mem_cons_self _ _)
    obtain ⟨a, _, _, hha, _, _, _, _, _⟩ := hr.lookup hid0
    have hxa : x = some a := by
      rw [hha] at hx0
      cases hx0
      rfl
    subst hxa
    obtain ⟨w2, hs2, hr2, hh2, _⟩ := submit_reg hr id0 a hid0 hha
    simp only [submitAll, hs2] at hs
    obtain ⟨hall2, _, hkeep2⟩ := submit_keeps_published w0 hr id0 a hid0 hha w2 hs2
    have hl3 : ∀ y ∈ rest, ∃ id, id < n ∧ w2.agg.handles[id]? = some y := by
      intro y hy
      obtain ⟨id, hid, hy1⟩ := hl y (List.mem_cons_of_mem _ hy)
      exact ⟨id, hid, by rw [hh2]; exact hy1⟩
    obtain ⟨hall1, hkeep1, hdone1⟩ :=
      submitAll_publishes w0 rest w2 w1 hr2 hl3 (fun j hj => hall2 j hj (hg j hj)) hs
    refine ⟨hall1, fun j hj h => hkeep1 j hj (hkeep2 j hj h), ?_⟩
    intro id hid y hy hyid
    rcases List.mem_cons.mp hy with hyx | hyr
    · subst hyx
      obtain ⟨_, hself, _⟩ := submit_keeps_published w0 hr id a hid hyid w2 hs2
      exact hkeep1 id hid (hself (hg id hid))
    · exact hdone1 id hid y hyr (by rw [hh2]; exact hyid)

theorem register_handle_eq (s : SVAggregator A V) (id ah : Nat) (h1 : id < s.values.length)
    (h2 : id < s.handles.length) :
    s.register_handle id ah = some
      { s with
        values := s.values.set id { v := some ah, fresh := false }
        handles := s.handles.set id (some ah) } := by
  simp [SVAggregator.register_handle, h1, h2]

/-- Registering the handles of the listed workers binds exactly their slots and leaves the rest
of the aggregator as it is. -/
theorem registerAll_spec :
    ∀ (ids : List Nat) (s : SVAggregator A V),
      (∀ id ∈ ids, id < s.values.length ∧ id < s.handles.length) →
      ∃ s1, registerAll s ids = some s1 ∧
        s1.values.length = s.values.length ∧ s1.handles.length = s.handles.length ∧
        s1.global = s.global ∧ s1.flag = s.flag ∧ s1.viewer = s.viewer ∧
        s1.latest_result = s.latest_result ∧
        (∀ j, j ∈ ids → s1.values[j]? = some { v := some j, fresh := false } ∧
          s1.handles[j]? = some (some j)) ∧
        (∀ j, j ∉ ids → s1.values[j]? = s.values[j]? ∧ s1.handles[j]? = s.handles[j]?)
  | [], s, _ =>
    ⟨s, rfl, rfl, rfl, rfl, rfl, rfl, rfl, fun j hj => absurd hj (List.not_mem_nil j),
      fun _ _ => ⟨rfl, rfl⟩⟩
  | id :: rest, s, hb => by
    obtain ⟨hb1, hb2⟩ := hb id (List.mem_cons_self _ _)
    have hreg := register_handle_eq s id id hb1 hb2
    have hb3 : ∀ x ∈ rest,
        x < ({ s with
               values := s.values.set id { v := some id, fresh := false }
               handles := s.handles.set id (some id) } : SVAggregator A V).values.length ∧
        x < ({ s with
               values := s.values.set id { v := some id, fresh := false }
               handles := s.handles.set id (some id) } : SVAggregator A V).handles.length := by
      intro x hx
      have := hb x (List.mem_cons_of_mem _ hx)
      simpa using this
    obtain ⟨s1, hs1, hl1, hl2, hg, hf, hv, hl, hin, hout⟩ := registerAll_spec rest _ hb3
    refine ⟨s1, ?_, ?_, ?_, hg, hf, hv, hl, ?_, ?_⟩
    · simp only [registerAll, hreg, hs1]
    · rw [hl1]; simp
    · rw [hl2]; simp
    · intro j hj
      by_cases hjr : j ∈ rest
      · exact hin j hjr
      · have hji : j = id := by
          rcases List.mem_cons.mp hj with h | h
          · exact h
          · exact absurd h hjr
        subst hji
        obtain ⟨e1, e2⟩ := hout j hjr
        rw [e1, e2]
        exact ⟨List.getElem?_set_self hb1, List.getElem?_set_self hb2⟩
    · intro j hj
      have hji : id ≠ j := fun h => hj (h ▸ List.mem_cons_self _ _)
      have hjr : j ∉ rest := fun h => hj (List.mem_cons_of_mem _ h)
      obtain ⟨e1, e2⟩ := hout j hjr
      rw [e1, e2]
      exact ⟨List.getElem?_set_ne hji, List.getElem?_set_ne hji⟩

/-- Construction followed by registration of all handles gives a registered state with the
constructor's flag, `global` and every buffer at the identity, the default View and no fresh
slot. -/
theorem setup_spec [Zero A] [Inhabited V] (n : Nat) (vf : A → V) (flag0 : flag_t) :
    ∃ w0 : World A V, setup n vf flag0 = some w0 ∧ Registered n w0 ∧
      w0.agg.flag = flag0 ∧ w0.agg.global = 0 ∧ w0.agg.latest_result = default ∧
      w0.agg.viewer = vf ∧
      (∀ j, j < n → freshOf w0 j = false) ∧
      (∀ j, j < n → handleOf w0 j = some (SVAggHandle.construct j true)) := by
  have hb : ∀ id ∈ List.range n,
      id < (SVAggregator.construct n vf flag0 : SVAggregator A V).values.length ∧
      id < (SVAggregator.construct n vf flag0 : SVAggregator A V).handles.length := by
    intro id hid
    have := List.mem_range.mp hid
    simp [SVAggregator.construct, this]
  obtain ⟨s1, hs1, hl1, hl2, hg, hf, hv, hl, hin, _⟩ :=
    registerAll_spec (List.range n) (SVAggregator.construct n vf flag0) hb
  have hheap : ∀ j, j < n →
      ((List.range n).map (fun i => (SVAggHandle.construct i true : SVAggHandle A)))[j]? =
        some (SVAggHandle.construct j true) := by
    intro j hj
    rw [List.getElem?_map, List.getElem?_range hj]
    rfl
  refine ⟨{ agg := s1, heap := (List.range n).map (fun i => SVAggHandle.construct i true) },
    ?_, ?_, hf, hg, hl, hv, ?_, ?_⟩
  · simp only [setup, hs1]
  · refine ⟨?_, ?_, ?_⟩
    · show s1.values.length = n
      rw [hl1]; simp [SVAggregator.construct]
    · show s1.handles.length = n
      rw [hl2]; simp [SVAggregator.construct]
    · intro id hid
      obtain ⟨e1, e2⟩ := hin id (List.mem_range.mpr hid)
      exact (slotOk_iff _ id).mpr
        ⟨id, SVAggHandle.construct id true, { v := some id, fresh := false }, e2, e1, rfl,
          hheap id hid, rfl, rfl⟩
  · intro j hj
    obtain ⟨e1, _⟩ := hin j (List.mem_range.mpr hj)
    exact freshOf_eq
      { agg := s1, heap := (List.range n).map (fun i => SVAggHandle.construct i true) } j _ e1
  · intro j hj
    obtain ⟨_, e2⟩ := hin j (List.mem_range.mpr hj)
    rw [handleOf_eq
      { agg := s1, heap := (List.range n).map (fun i => SVAggHandle.construct i true) } j j e2]
    exact hheap j hj

theorem Registered.values_ne {n : Nat} {w : World A V} (hr : Registered n w) (hn : 1 ≤ n) :
    w.agg.values ≠ [] := by
  intro hnil
  have hlen := hr.1
  rw [hnil] at hlen
  simp at hlen
  omega

theorem Registered.slots_bound {n : Nat} {w : World A V} (hr : Registered n w) :
    ∀ item ∈ w.agg.values, ∃ i hd, item.v = some i ∧ w.heap[i]? = some hd := by
  intro item hm
  obtain ⟨j, hj⟩ := List.mem_iff_getElem?.mp hm
  have hjn : j < n := by
    rcases List.getElem?_eq_some.mp hj with ⟨hlt, _⟩
    rw [hr.1] at hlt
    exact hlt
  obtain ⟨a, h, item2, _, hvi, hiv, hhp, _, _⟩ := hr.lookup hjn
  rw [hj] at hvi
  cases hvi
  exact ⟨a, h, hiv, hhp⟩

/-- Overwriting the handle object of worker `id` by one with the same `id` and `agg` members:
the state stays registered, the aggregator is untouched, and only worker `id` sees a different
handle. -/
theorem heap_set_view {n : Nat} {w : World A V} (hr : Registered n w) (id a : Nat)
    (h h1 : SVAggHandle A) (hid : id < n) (ha : w.agg.handles[id]? = some (some a))
    (hh : w.heap[a]? = some h) (e1 : h1.id = h.id) (e2 : h1.agg = h.agg) :
    Registered n { w with heap := w.heap.set a h1 } ∧
      handleOf { w with heap := w.heap.set a h1 } id = some h1 ∧
      (∀ j, j < n → j ≠ id → handleOf { w with heap := w.heap.set a h1 } j = handleOf w j) ∧
      (∀ j, freshOf { w with heap := w.heap.set a h1 } j = freshOf w j) := by
  have hview : ∀ j, j < n →
      handleOf { agg := w.agg, heap := w.heap.set a h1 } j =
        if j = id then some h1 else handleOf w j :=
    fun j hj => handleOf_set hr w.agg rfl id a h1 ha hid j hj
  refine ⟨?_, ?_, ?_, fun _ => rfl⟩
  · exact hr.transfer rfl rfl (fun j it hj => ⟨it, hj, rfl⟩)
      (heap_set_lookup w.heap a h h1 hh e1 e2)
  · rw [hview id hid]; simp
  · intro j hj hji
    rw [hview j hj]; simp [hji]

theorem handle_reset_eq [Zero A] (w : World A V) (a : Nat) (h : SVAggHandle A)
    (hh : w.heap[a]? = some h) :
    SVAggHandle.reset a w =
      some { w with heap := w.heap.set a { h with curr := 0, other := 0 } } := by
  simp only [SVAggHandle.reset, hh]

theorem freshOf_congr (w1 w2 : World A V) (h : w1.agg.values = w2.agg.values) (j : Nat) :
    freshOf w1 j = freshOf w2 j := by
  simp only [freshOf, h]

/-- One call on a registered state, run without interference: it returns, the state stays
registered, `latest_result` follows the bookkeeping of `snapshotAfter`, a slot turns fresh only
in the `submit()` of its own worker, and a call on a handle leaves the flag, `latest_result` and
`global` alone. -/
theorem runCall_step [Add A] [Zero A] [Inhabited V] {n : Nat} (hn : 1 ≤ n) {w : World A V}
    (hr : Registered n w) (fuel : Nat) (hfuel : 2 ≤ fuel) (c : Call A)
    (hc : c.valid n = true) :
    ∃ w1, runCall fuel w c = some w1 ∧ Registered n w1 ∧ w1.agg.viewer = w.agg.viewer ∧
      (∀ snap, w.agg.latest_result = viewOf w.agg.viewer snap →
        w1.agg.latest_result = viewOf w1.agg.viewer (snapshotAfter w w1 snap c)) ∧
      (∀ j, j < n → freshOf w j = false → freshOf w1 j = true → c = Call.submit j) ∧
      (c.onHandle = true → w1.agg.flag = w.agg.flag ∧
        w1.agg.latest_result = w.agg.latest_result ∧ w1.agg.global = w.agg.global) := by
  cases c with
  | map id v =>
    have hid : id < n := by simpa [Call.valid] using hc
    obtain ⟨a, h, _, hha, _, _, hhp, _, _⟩ := hr.lookup hid
    refine ⟨{ w with heap := w.heap.set a { h with curr := h.curr + v } }, ?_,
      (heap_set_view hr id a h { h with curr := h.curr + v } hid hha hhp rfl rfl).1, rfl,
      fun _ hs => hs, ?_,
      fun _ => ⟨rfl, rfl, rfl⟩⟩
    · simp only [runCall, hha, map_eq w a h v hhp]
    · intro j _ h0 h1
      exact absurd (h0.symm.trans h1) (by decide)
  | submit id =>
    have hid : id < n := by simpa [Call.valid] using hc
    obtain ⟨a, _, _, hha, _, _, _, _, _⟩ := hr.lookup hid
    obtain ⟨w1, hs1, hr1, _, hg1, hf1, hv1, hl1, _⟩ := submit_reg hr id a hid hha
    obtain ⟨w2, _, hs2, _, _, _, hoth⟩ := submit_view hr id a hid hha
    rw [hs1] at hs2
    cases hs2
    refine ⟨w1, ?_, hr1, hv1, ?_, ?_, fun _ => ⟨hf1, hl1, hg1⟩⟩
    · simp only [runCall, hha, hs1]
    · intro snap hs
      show w1.agg.latest_result = viewOf w1.agg.viewer snap
      rw [hl1, hv1]
      exact hs
    · intro j hj h0 h1
      by_cases hji : j = id
      · rw [hji]
      · rw [(hoth j hj hji).1] at h1
        exact absurd (h0.symm.trans h1) (by decide)
  | handleReset id =>
    have hid : id < n := by simpa [Call.valid] using hc
    obtain ⟨a, h, _, hha, _, _, hhp, _, _⟩ := hr.lookup hid
    refine ⟨{ w with heap := w.heap.set a { h with curr := 0, other := 0 } }, ?_,
      (heap_set_view hr id a h { h with curr := 0, other := 0 } hid hha hhp rfl rfl).1, rfl,
      fun _ hs => hs, ?_,
      fun _ => ⟨rfl, rfl, rfl⟩⟩
    · simp only [runCall, hha, handle_reset_eq w a h hhp]
    · intro j _ h0 h1
      exact absurd (h0.symm.trans h1) (by decide)
  | readValue id =>
    have hid : id < n := by simpa [Call.valid] using hc
    obtain ⟨a, h, _, hha, _, _, hhp, _, hagg⟩ := hr.lookup hid
    refine ⟨w, ?_, hr, rfl, fun _ hs => hs, ?_, fun _ => ⟨rfl, rfl, rfl⟩⟩
    · simp [runCall, hha, SVAggHandle.read_value, hhp, hagg]
    · intro j _ h0 h1
      exact absurd (h0.symm.trans h1) (by decide)
  | update =>
    by_cases hfl : w.agg.flag = ON
    · obtain ⟨s1, hu1, hr1, _, _, hv1, hl1, hfr1⟩ := merge_reg hr hn
      refine ⟨{ agg := s1, heap := w.heap }, ?_, hr1, hv1, ?_, ?_, ?_⟩
      · show w.update = _
        rw [update_of_armed w hfl]
        simp only [World.update_unchecked, hu1]
      · intro snap _
        simp only [snapshotAfter, hfl, if_true]
        exact hl1
      · intro j _ _ h1
        rw [hfr1 j] at h1
        cases h1
      · intro h
        cases h
    · refine ⟨w, update_of_not_armed w hfl, hr, rfl, ?_, ?_, ?_⟩
      · intro snap hs
        simp only [snapshotAfter, hfl, if_false]
        exact hs
      · intro j _ h0 h1
        exact absurd (h0.symm.trans h1) (by decide)
      · intro h
        cases h
  | getResult =>
    obtain ⟨s1, w2, s3, _, _, _, hget, _, _, hr3, _, hl3, hv3, hfr3, _⟩ :=
      get_result_reg hr hn fuel hfuel
    refine ⟨{ agg := s3, heap := w2.heap }, ?_, hr3, hv3, fun _ _ => hl3, ?_, ?_⟩
    · simp only [runCall, hget]
    · intro j hj _ h1
      rw [hfr3 j hj] at h1
      cases h1
    · intro h
      cases h
  | aggReset =>
    refine ⟨w.reset, rfl, hr, rfl, fun _ _ => rfl, ?_, ?_⟩
    · intro j _ h0 h1
      exact absurd (h0.symm.trans h1) (by decide)
    · intro h
      cases h

/-- A run of calls on workers below `n`, from a registered state, returns and ends in a
registered state; `latest_result` follows the bookkeeping. -/
theorem runCallsSnap_spec [Add A] [Zero A] [Inhabited V] {n : Nat} (hn : 1 ≤ n) (fuel : Nat)
    (hfuel : 2 ≤ fuel) :
    ∀ (cs : List (Call A)) (w : World A V) (snap : Option A), Registered n w →
      (∀ c ∈ cs, Call.valid n c = true) →
      w.agg.latest_result = viewOf w.agg.viewer snap →
      ∃ w1 snap1, runCallsSnap fuel cs w snap = some (w1, snap1) ∧
        runCalls fuel cs w = some w1 ∧ Registered n w1 ∧
        w1.agg.viewer = w.agg.viewer ∧
        w1.agg.latest_result = viewOf w1.agg.viewer snap1
  | [], w, snap, hr, _, hs => ⟨w, snap, rfl, rfl, hr, rfl, hs⟩
  | c :: cs, w, snap, hr, hv, hs => by
    obtain ⟨w2, hc2, hr2, hv2, hsn2, _⟩ :=
      runCall_step hn hr fuel hfuel c (hv c (List.mem_cons_self _ _))
    obtain ⟨w1, snap1, hrs, hrc, hr1, hv1, hl1⟩ :=
      runCallsSnap_spec hn fuel hfuel cs w2 (snapshotAfter w w2 snap c) hr2
        (fun x hx => hv x (List.mem_cons_of_mem _ hx)) (hsn2 snap hs)
    refine ⟨w1, snap1, ?_, ?_, hr1, hv1.trans hv2, hl1⟩
    · simp only [runCallsSnap, hc2, hrs]
    · simp only [runCalls, hc2, hrc]

/-- Calls on handles only leave the flag, `latest_result` and `global` as they are. -/
theorem runCalls_onHandle [Add A] [Zero A] [Inhabited V] {n : Nat} (hn : 1 ≤ n) (fuel : Nat)
    (hfuel : 2 ≤ fuel) :
    ∀ (cs : List (Call A)) (w : World A V), Registered n w →
      (∀ c ∈ cs, Call.valid n c = true ∧ Call.onHandle c = true) →
      ∃ w1, runCalls fuel cs w = some w1 ∧ Registered n w1 ∧
        w1.agg.flag = w.agg.flag ∧ w1.agg.latest_result = w.agg.latest_result ∧
        w1.agg.global = w.agg.global
  | [], w, hr, _ => ⟨w, rfl, hr, rfl, rfl, rfl⟩
  | c :: cs, w, hr, hv => by
    obtain ⟨hc1, hc2⟩ := hv c (List.mem_cons_self _ _)
    obtain ⟨w2, hrun2, hr2, _, _, _, hon⟩ := runCall_step hn hr fuel hfuel c hc1
    obtain ⟨hf2, hl2, hg2⟩ := hon hc2
    obtain ⟨w1, hrun1, hr1, hf1, hl1, hg1⟩ :=
      runCalls_onHandle hn fuel hfuel cs w2 hr2 (fun x hx => hv x (List.mem_cons_of_mem _ hx))
    refine ⟨w1, ?_, hr1, hf1.trans hf2, hl1.trans hl2, hg1.trans hg2⟩
    simp only [runCalls, hrun2, hrun1]

theorem mergeSlot_congr [Add A] (heap1 heap2 : List (SVAggHandle A)) (g : A)
    (val : SVAggItem)
    (h : val.fresh = true → ∀ i, val.v = some i →
      (heap1[i]?).map (fun x => x.other) = (heap2[i]?).map (fun x => x.other)) :
    mergeSlot heap1 g val = mergeSlot heap2 g val := by
  unfold mergeSlot
  cases hf : val.fresh with
  | false => rfl
  | true =>
    cases hv : val.v with
    | none => rfl
    | some i =>
      have hi := h hf i hv
      cases h1 : heap1[i]? with
      | none =>
        cases h2 : heap2[i]? with
        | none => simp [h1, h2]
        | some x2 => rw [h1, h2] at hi; cases hi
      | some x1 =>
        cases h2 : heap2[i]? with
        | none => rw [h1, h2] at hi; cases hi
        | some x2 =>
          rw [h1, h2] at hi
          simp only [Option.map_some', Option.some.injEq] at hi
          simp [h1, h2, hi]

/-- A merge loop reads a heap only through the published buffers of the fresh slots. -/
theorem mergeLoop_congr [Add A] (heap1 heap2 : List (SVAggHandle A)) :
    ∀ (vals : List SVAggItem) (g : A),
      (∀ item ∈ vals, item.fresh = true → ∀ i, item.v = some i →
        (heap1[i]?).map (fun x => x.other) = (heap2[i]?).map (fun x => x.other)) →
      mergeLoop heap1 g vals = mergeLoop heap2 g vals
  | [], _, _ => rfl
  | val :: rest, g, h => by
    simp only [mergeLoop, mergeSlot_congr heap1 heap2 g val (h val (List.mem_cons_self _ _))]
    cases mergeSlot heap2 g val with
    | none => rfl
    | some r =>
      obtain ⟨g1, val1⟩ := r
      simp only
      rw [mergeLoop_congr heap1 heap2 rest g1 (fun it hm => h it (List.mem_cons_of_mem _ hm))]

theorem SameView.handles_eq {n : Nat} {w1 w2 : World A V} (hsv : SameView n w1 w2) :
    w2.agg.handles = w1.agg.handles := by rw [hsv.1]

/-- The flag does not enter the comparison of what two states still hold. -/
theorem SameView.with_flag {n : Nat} {w1 w2 : World A V} (hsv : SameView n w1 w2)
    (f : flag_t) :
    SameView n { agg := { w1.agg with flag := f }, heap := w1.heap }
      { agg := { w2.agg with flag := f }, heap := w2.heap } := by
  refine ⟨?_, hsv.2⟩
  show ({ w1.agg with flag := f } : SVAggregator A V) = { w2.agg with flag := f }
  rw [hsv.1]

/-- A merge pass on two states that hold the same gives the same aggregator, and the two
states hold the same afterwards. -/
theorem sameView_merge [Add A] {n : Nat} {w1 w2 : World A V} (hr1 : Registered n w1)
    (hsv : SameView n w1 w2) :
    w1.agg.update_unchecked w1.heap = w2.agg.update_unchecked w2.heap ∧
      ∀ s1, w1.agg.update_unchecked w1.heap = some s1 →
        SameView n { agg := s1, heap := w1.heap } { agg := s1, heap := w2.heap } := by
  have hcongr : ∀ item ∈ w1.agg.values, item.fresh = true → ∀ i, item.v = some i →
      (w1.heap[i]?).map (fun x => x.other) = (w2.heap[i]?).map (fun x => x.other) := by
    intro item hm hf i hv
    obtain ⟨j, hj⟩ := List.mem_iff_getElem?.mp hm
    have hjn : j < n := by
      rcases List.getElem?_eq_some.mp hj with ⟨hlt, _⟩
      rw [hr1.1] at hlt
      exact hlt
    obtain ⟨a, h, item2, hha, hvi, hiv, hhp, _, _⟩ := hr1.lookup hjn
    rw [hj] at hvi
    cases hvi
    rw [hv] at hiv
    cases hiv
    obtain ⟨h1, h2, e1, e2, _, ho⟩ := hsv.2 j hjn
    rw [handleOf_eq w1 j i hha] at e1
    rw [handleOf_eq w2 j i (by rw [hsv.handles_eq]; exact hha)] at e2
    rw [e1, e2]
    simp only [Option.map_some', Option.some.injEq]
    exact ho (by rw [freshOf_eq w1 j item hj]; exact hf)
  have heq : w1.agg.update_unchecked w1.heap = w2.agg.update_unchecked w2.heap := by
    rw [← hsv.1]
    simp only [SVAggregator.update_unchecked,
      mergeLoop_congr w1.heap w2.heap w1.agg.values w1.agg.global hcongr]
  refine ⟨heq, ?_⟩
  intro s1 hu
  obtain ⟨_, hs1⟩ := update_unchecked_some w1.heap w1.agg s1 hu
  have hv1 : s1.values = w1.agg.values.map clearFresh := by rw [hs1]
  have hh1 : s1.handles = w1.agg.handles := by rw [hs1]
  refine ⟨rfl, ?_⟩
  intro j hj
  obtain ⟨h1, h2, e1, e2, hc, _⟩ := hsv.2 j hj
  refine ⟨h1, h2, ?_, ?_, hc, ?_⟩
  · rw [handleOf_same_heap w1 s1 hh1 j]; exact e1
  · rw [handleOf_same_heap w2 s1 (by rw [hh1, hsv.handles_eq]) j]; exact e2
  · intro hf
    rw [freshOf_clear w1 s1 hv1 j] at hf
    cases hf

/-- Overwriting the handle object of worker `id` in two states that hold the same, by handles
with the same active buffer (and the same published buffer if the slot is fresh). -/
theorem sameView_heap_set {n : Nat} {w1 w2 : World A V} (hr1 : Registered n w1)
    (hr2 : Registered n w2) (hsv : SameView n w1 w2) (id a : Nat) (hid : id < n)
    (ha : w1.agg.handles[id]? = some (some a)) (h1 h2 k1 k2 : SVAggHandle A)
    (hh1 : w1.heap[a]? = some h1) (hh2 : w2.heap[a]? = some h2)
    (e1 : k1.id = h1.id) (e2 : k1.agg = h1.agg) (e3 : k2.id = h2.id) (e4 : k2.agg = h2.agg)
    (hc : k1.curr = k2.curr) (ho : freshOf w1 id = true → k1.other = k2.other) :
    SameView n { w1 with heap := w1.heap.set a k1 } { w2 with heap := w2.heap.set a k2 } := by
  have ha2 : w2.agg.handles[id]? = some (some a) := by rw [hsv.handles_eq]; exact ha
  obtain ⟨_, hv1, ho1, _⟩ := heap_set_view hr1 id a h1 k1 hid ha hh1 e1 e2
  obtain ⟨_, hv2, ho2, _⟩ := heap_set_view hr2 id a h2 k2 hid ha2 hh2 e3 e4
  refine ⟨hsv.1, ?_⟩
  intro j hj
  by_cases hji : j = id
  · subst hji
    exact ⟨k1, k2, hv1, hv2, hc, ho⟩
  · obtain ⟨x1, x2, f1, f2, fc, fo⟩ := hsv.2 j hj
    exact ⟨x1, x2, by rw [ho1 j hj hji]; exact f1, by rw [ho2 j hj hji]; exact f2, fc, fo⟩

/-- The same `submit()` on two states that hold the same. -/
theorem sameView_submit [Zero A] {n : Nat} {w1 w2 : World A V} (hr1 : Registered n w1)
    (hr2 : Registered n w2) (hsv : SameView n w1 w2) (id a : Nat) (hid : id < n)
    (ha : w1.agg.handles[id]? = some (some a)) :
    ∃ v1 v2, SVAggHandle.submit a w1 = some v1 ∧ SVAggHandle.submit a w2 = some v2 ∧
      SameView n v1 v2 := by
  have ha2 : w2.agg.handles[id]? = some (some a) := by rw [hsv.handles_eq]; exact ha
  obtain ⟨v1, h1, hs1, hw1, hfr1, hst1, hoth1⟩ := submit_view hr1 id a hid ha
  obtain ⟨v2, h2, hs2, hw2, hfr2, hst2, hoth2⟩ := submit_view hr2 id a hid ha2
  have hfeq : freshOf w2 id = freshOf w1 id := freshOf_congr w2 w1 (by rw [hsv.1]) id
  obtain ⟨x1, x2, f1, f2, fc, _⟩ := hsv.2 id hid
  rw [hw1] at f1
  rw [hw2] at f2
  cases f1
  cases f2
  refine ⟨v1, v2, hs1, hs2, ?_⟩
  cases hf : freshOf w1 id with
  | true =>
    rw [hfr1 hf, hfr2 (hfeq.trans hf)]
    exact hsv
  | false =>
    obtain ⟨g1, k1, item1, hi1, hagg1⟩ := hst1 hf
    obtain ⟨g2, k2, item2, hi2, hagg2⟩ := hst2 (hfeq.trans hf)
    have hitem : item2 = item1 := by
      rw [← hsv.1, hi1] at hi2
      exact (Option.some.inj hi2).symm
    have hagg : v1.agg = v2.agg := by
      rw [hagg1, hagg2, hitem, hsv.1]
    refine ⟨hagg, ?_⟩
    intro j hj
    by_cases hji : j = id
    · subst hji
      exact ⟨_, _, k1, k2, rfl, fun _ => fc⟩
    · obtain ⟨y1, y2, q1, q2, qc, qo⟩ := hsv.2 j hj
      obtain ⟨p1, p2⟩ := hoth1 j hj hji
      obtain ⟨r1, r2⟩ := hoth2 j hj hji
      refine ⟨y1, y2, by rw [p2]; exact q1, by rw [r2]; exact q2, qc, ?_⟩
      intro hfj
      rw [p1] at hfj
      exact qo hfj

theorem SameView.at_handle {n : Nat} {w1 w2 : World A V} (hsv : SameView n w1 w2)
    (id a : Nat) (hid : id < n) (ha : w1.agg.handles[id]? = some (some a))
    (h1 h2 : SVAggHandle A) (hh1 : w1.heap[a]? = some h1) (hh2 : w2.heap[a]? = some h2) :
    h1.curr = h2.curr ∧ (freshOf w1 id = true → h1.other = h2.other) := by
  obtain ⟨x1, x2, f1, f2, fc, fo⟩ := hsv.2 id hid
  rw [handleOf_eq w1 id a ha, hh1] at f1
  rw [handleOf_eq w2 id a (by rw [hsv.handles_eq]; exact ha), hh2] at f2
  cases f1
  cases f2
  exact ⟨fc, fo⟩

/-- The loop of forced submits on two states that hold the same. -/
theorem sameView_submitAll [Zero A] {n : Nat} :
    ∀ (l : List (Option Nat)) (w1 w2 : World A V), Registered n w1 → Registered n w2 →
      SameView n w1 w2 →
      (∀ x ∈ l, ∃ id, id < n ∧ w1.agg.handles[id]? = some x) →
      ∃ v1 v2, submitAll l w1 = some v1 ∧ submitAll l w2 = some v2 ∧
        Registered n v1 ∧ Registered n v2 ∧ SameView n v1 v2
  | [], w1, w2, hr1, hr2, hsv, _ => ⟨w1, w2, rfl, rfl, hr1, hr2, hsv⟩
  | x :: rest, w1, w2, hr1, hr2, hsv, hl => by
    obtain ⟨id0, hid0, hx0⟩ := hl x (List.mem_cons_self _ _)
    obtain ⟨a, _, _, hha, _, _, _, _, _⟩ := hr1.lookup hid0
    have hxa : x = some a := by
      rw [hha] at hx0
      cases hx0
      rfl
    subst hxa
    have hha2 : w2.agg.handles[id0]? = some (some a) := by rw [hsv.handles_eq]; exact hha
    obtain ⟨u1, u2, hs1, hs2, hsu⟩ := sameView_submit hr1 hr2 hsv id0 a hid0 hha
    obtain ⟨u1x, hs1x, hru1, hh1, _⟩ := submit_reg hr1 id0 a hid0 hha
    obtain ⟨u2x, hs2x, hru2, _⟩ := submit_reg hr2 id0 a hid0 hha2
    rw [hs1] at hs1x
    rw [hs2] at hs2x
    cases hs1x
    cases hs2x
    have hl3 : ∀ y ∈ rest, ∃ id, id < n ∧ u1.agg.handles[id]? = some y := by
      intro y hy
      obtain ⟨id, hid, hy1⟩ := hl y (List.mem_cons_of_mem _ hy)
      exact ⟨id, hid, by rw [hh1]; exact hy1⟩
    obtain ⟨v1, v2, ht1, ht2, hrv1, hrv2, hsvv⟩ :=
      sameView_submitAll rest u1 u2 hru1 hru2 hsu hl3
    refine ⟨v1, v2, ?_, ?_, hrv1, hrv2, hsvv⟩
    · simp only [submitAll, hs1, ht1]
    · simp only [submitAll, hs2, ht2]

/-- The drain `get_result()` on two states that hold the same. -/
theorem sameView_get_result [Add A] [Zero A] {n : Nat} (hn : 1 ≤ n) {w1 w2 : World A V}
    (hr1 : Registered n w1) (hr2 : Registered n w2) (hsv : SameView n w1 w2) (fuel : Nat)
    (hfuel : 2 ≤ fuel) :
    ∃ v1 v2, SVAggregator.get_result fuel w1 = some ((), v1) ∧
      SVAggregator.get_result fuel w2 = some ((), v2) ∧ SameView n v1 v2 := by
  obtain ⟨s1, x2, s3, hu1, hs2, hu3, hget1, hrs1, hrx2, _⟩ := get_result_reg hr1 hn fuel hfuel
  obtain ⟨t1, y2, t3, hu1b, hs2b, hu3b, hget2, hrt1, hry2, _⟩ :=
    get_result_reg hr2 hn fuel hfuel
  have hr1f : Registered n { agg := { w1.agg with flag := OFF }, heap := w1.heap } := hr1
  obtain ⟨heqA, hsvA⟩ := sameView_merge hr1f (hsv.with_flag OFF)
  have hst : t1 = s1 := by
    have h := heqA
    simp only at h
    rw [hu1, hu1b] at h
    exact (Option.some.inj h).symm
  subst hst
  have hsv1 := hsvA t1 hu1
  obtain ⟨v1, v2, ht1, ht2, _, _, hsvB⟩ :=
    sameView_submitAll t1.handles { agg := t1, heap := w1.heap } { agg := t1, heap := w2.heap }
      hrs1 hrt1 hsv1 (handles_registered hrs1)
  rw [hs2] at ht1
  rw [hs2b] at ht2
  cases ht1
  cases ht2
  obtain ⟨heqC, hsvC⟩ := sameView_merge hrx2 hsvB
  have hst3 : t3 = s3 := by
    rw [hu3, hu3b] at heqC
    exact (Option.some.inj heqC).symm
  subst hst3
  exact ⟨_, _, hget1, hget2, hsvC t3 hu3⟩

/-- One call on two states that hold the same: both return, and they hold the same after. -/
theorem sameView_runCall [Add A] [Zero A] [Inhabited V] {n : Nat} (hn : 1 ≤ n)
    {w1 w2 : World A V} (hr1 : Registered n w1) (hr2 : Registered n w2)
    (hsv : SameView n w1 w2) (fuel : Nat) (hfuel : 2 ≤ fuel) (c : Call A)
    (hc : c.valid n = true) :
    ∃ v1 v2, runCall fuel w1 c = some v1 ∧ runCall fuel w2 c = some v2 ∧
      Registered n v1 ∧ Registered n v2 ∧ SameView n v1 v2 := by
  obtain ⟨u1, hrun1, hru1, _⟩ := runCall_step hn hr1 fuel hfuel c hc
  obtain ⟨u2, hrun2, hru2, _⟩ := runCall_step hn hr2 fuel hfuel c hc
  refine ⟨u1, u2, hrun1, hrun2, hru1, hru2, ?_⟩
  cases c with
  | map id v =>
    have hid : id < n := by simpa [Call.valid] using hc
    obtain ⟨a, h1, _, hha, _, _, hhp1, _, _⟩ := hr1.lookup hid
    obtain ⟨a2, h2, _, hha2, _, _, hhp2, _, _⟩ := hr2.lookup hid
    have haa : a2 = a := by
      rw [hsv.handles_eq, hha] at hha2
      cases hha2
      rfl
    subst haa
    simp only [runCall, hha, map_eq w1 a2 h1 v hhp1] at hrun1
    simp only [runCall, hha2, map_eq w2 a2 h2 v hhp2] at hrun2
    cases hrun1
    cases hrun2
    obtain ⟨fc, fo⟩ := hsv.at_handle id a2 hid hha h1 h2 hhp1 hhp2
    exact sameView_heap_set hr1 hr2 hsv id a2 hid hha h1 h2 _ _ hhp1 hhp2 rfl rfl rfl rfl
      (by show h1.curr + v = h2.curr + v; rw [fc]) fo
  | submit id =>
    have hid : id < n := by simpa [Call.valid] using hc
    obtain ⟨a, _, _, hha, _, _, _, _, _⟩ := hr1.lookup hid
    have hha2 : w2.agg.handles[id]? = some (some a) := by rw [hsv.handles_eq]; exact hha
    obtain ⟨v1, v2, hs1, hs2, hsvv⟩ := sameView_submit hr1 hr2 hsv id a hid hha
    simp only [runCall, hha, hs1] at hrun1
    simp only [runCall, hha2, hs2] at hrun2
    cases hrun1
    cases hrun2
    exact hsvv
  | handleReset id =>
    have hid : id < n := by simpa [Call.valid] using hc
    obtain ⟨a, h1, _, hha, _, _, hhp1, _, _⟩ := hr1.lookup hid
    obtain ⟨a2, h2, _, hha2, _, _, hhp2, _, _⟩ := hr2.lookup hid
    have haa : a2 = a := by
      rw [hsv.handles_eq, hha] at hha2
      cases hha2
      rfl
    subst haa
    simp only [runCall, hha, handle_reset_eq w1 a2 h1 hhp1] at hrun1
    simp only [runCall, hha2, handle_reset_eq w2 a2 h2 hhp2] at hrun2
    cases hrun1
    cases hrun2
    exact sameView_heap_set hr1 hr2 hsv id a2 hid hha h1 h2 _ _ hhp1 hhp2 rfl rfl rfl rfl
      rfl (fun _ => rfl)
  | readValue id =>
    have hid : id < n := by simpa [Call.valid] using hc
    obtain ⟨a, h1, _, hha, _, _, hhp1, _, hagg1⟩ := hr1.lookup hid
    obtain ⟨a2, h2, _, hha2, _, _, hhp2, _, hagg2⟩ := hr2.lookup hid
    simp [runCall, hha, SVAggHandle.read_value, hhp1, hagg1] at hrun1
    simp [runCall, hha2, SVAggHandle.read_value, hhp2, hagg2] at hrun2
    rw [← hrun1, ← hrun2]
    exact hsv
  | update =>
    have hfeq : w2.agg.flag = w1.agg.flag := by rw [hsv.1]
    by_cases hfl : w1.agg.flag = ON
    · have hfl2 : w2.agg.flag = ON := hfeq.trans hfl
      obtain ⟨heq, hsvm⟩ := sameView_merge hr1 hsv
      have e1 : w1.update = some u1 := hrun1
      have e2 : w2.update = some u2 := hrun2
      rw [update_of_armed w1 hfl] at e1
      rw [update_of_armed w2 hfl2] at e2
      simp only [World.update_unchecked] at e1 e2
      cases hu : w1.agg.update_unchecked w1.heap with
      | none => rw [hu] at e1; cases e1
      | some s1 =>
        rw [hu] at e1
        rw [← heq, hu] at e2
        cases e1
        cases e2
        exact hsvm s1 hu
    · have hfl2 : w2.agg.flag ≠ ON := by rw [hfeq]; exact hfl
      have e1 : w1.update = some u1 := hrun1
      have e2 : w2.update = some u2 := hrun2
      rw [update_of_not_armed w1 hfl] at e1
      rw [update_of_not_armed w2 hfl2] at e2
      cases e1
      cases e2
      exact hsv
  | getResult =>
    obtain ⟨v1, v2, hg1, hg2, hsvv⟩ := sameView_get_result hn hr1 hr2 hsv fuel hfuel
    simp only [runCall, hg1] at hrun1
    simp only [runCall, hg2] at hrun2
    cases hrun1
    cases hrun2
    exact hsvv
  | aggReset =>
    simp only [runCall] at hrun1 hrun2
    cases hrun1
    cases hrun2
    refine ⟨?_, hsv.2⟩
    show w1.agg.reset = w2.agg.reset
    rw [hsv.1]

/-- The same run on two states that hold the same: both return, with the same aggregator. -/
theorem sameView_runCalls [Add A] [Zero A] [Inhabited V] {n : Nat} (hn : 1 ≤ n) (fuel : Nat)
    (hfuel : 2 ≤ fuel) :
    ∀ (cs : List (Call A)) (w1 w2 : World A V), Registered n w1 → Registered n w2 →
      SameView n w1 w2 → (∀ c ∈ cs, Call.valid n c = true) →
      ∃ v1 v2, runCalls fuel cs w1 = some v1 ∧ runCalls fuel cs w2 = some v2 ∧
        SameView n v1 v2
  | [], w1, w2, _, _, hsv, _ => ⟨w1, w2, rfl, rfl, hsv⟩
  | c :: cs, w1, w2, hr1, hr2, hsv, hv => by
    obtain ⟨u1, u2, e1, e2, hru1, hru2, hsu⟩ :=
      sameView_runCall hn hr1 hr2 hsv fuel hfuel c (hv c (List.mem_cons_self _ _))
    obtain ⟨v1, v2, f1, f2, hsvv⟩ :=
      sameView_runCalls hn fuel hfuel cs u1 u2 hru1 hru2 hsu
        (fun x hx => hv x (List.mem_cons_of_mem _ hx))
    refine ⟨v1, v2, ?_, ?_, hsvv⟩
    · simp only [runCalls, e1, f1]
    · simp only [runCalls, e2, f2]

/-- A run of `map`, `submit`, `update` and `get_result` calls adds exactly the mapped values to
what the system holds. -/
theorem runCalls_total [AddCommMonoid A] [Inhabited V] {n : Nat} (hn : 1 ≤ n) (fuel : Nat)
    (hfuel : 2 ≤ fuel) :
    ∀ (cs : List (Call A)) (w : World A V), Registered n w →
      (∀ c ∈ cs, Call.valid n c = true ∧ Call.aggregates c = true) →
      ∃ w1, runCalls fuel cs w = some w1 ∧ Registered n w1 ∧
        total n w1 = total n w + (mappedBy cs).sum
  | [], w, hr, _ => ⟨w, rfl, hr, by simp [mappedBy]⟩
  | c :: cs, w, hr, hv => by
    obtain ⟨hc1, hc2⟩ := hv c (List.mem_cons_self _ _)
    obtain ⟨w2, hrun2, hr2, _⟩ := runCall_step hn hr fuel hfuel c hc1
    obtain ⟨w1, hrun1, hr1, ht1⟩ :=
      runCalls_total hn fuel hfuel cs w2 hr2 (fun x hx => hv x (List.mem_cons_of_mem _ hx))
    refine ⟨w1, by simp only [runCalls, hrun2, hrun1], hr1, ?_⟩
    rw [ht1]
    cases c with
    | map id v =>
      have hid : id < n := by simpa [Call.valid] using hc1
      obtain ⟨a, _, _, hha, _, _, _, _, _⟩ := hr.lookup hid
      obtain ⟨w3, hm3, _, _, ht3⟩ := map_step hr id a v hid hha
      simp only [runCall, hha, hm3] at hrun2
      cases hrun2
      rw [ht3]
      simp only [mappedBy, List.sum_cons]
      exact add_assoc _ _ _
    | submit id =>
      have hid : id < n := by simpa [Call.valid] using hc1
      obtain ⟨a, _, _, hha, _, _, _, _, _⟩ := hr.lookup hid
      simp only [runCall, hha] at hrun2
      rw [submit_total hr id a hid hha w2 hrun2]
      simp only [mappedBy]
    | update =>
      have e2 : w.update = some w2 := hrun2
      by_cases hfl : w.agg.flag = ON
      · rw [update_of_armed w hfl] at e2
        simp only [World.update_unchecked] at e2
        cases hu : w.agg.update_unchecked w.heap with
        | none => rw [hu] at e2; cases e2
        | some s1 =>
          rw [hu] at e2
          cases e2
          rw [merge_total hr hn s1 hu]
          simp only [mappedBy]
      · rw [update_of_not_armed w hfl] at e2
        cases e2
        simp only [mappedBy]
    | getResult =>
      obtain ⟨w3, hget, _, hg3, _, _, _, hfr3, hem3⟩ := get_result_spec hr hn fuel hfuel
      simp only [runCall, hget] at hrun2
      cases hrun2
      rw [total_of_drained hfr3 hem3, hg3]
      simp only [mappedBy]
    | handleReset id => cases hc2
    | readValue id => cases hc2
    | aggReset => cases hc2

end Runs

section Claims

variable {A V : Type u}

/-- C1 (conservation).  For every worker count `n ≥ 1` with all `n` handles registered, every
accumulator type that is a commutative monoid, every state in which `global` and all buffers are
the identity and no slot is fresh, and every finite sequence of `map(v)`, `submit()` and
`update()` calls on workers below `n`: the run returns, a terminal `get_result()` returns (two
iterations of its spin loop suffice), and `global` is then the sum of exactly the mapped
values. -/
theorem conservation [AddCommMonoid A] (n : Nat) (hn : 1 ≤ n) (w : World A V)
    (hr : Registered n w) (hg : w.agg.global = 0)
    (hbuf : ∀ id, id < n → ∃ h, handleOf w id = some h ∧ h.curr = 0 ∧ h.other = 0)
    (hfresh : ∀ id, id < n → freshOf w id = false)
    (ops : List (Op A)) (hv : ∀ op ∈ ops, Op.valid n op = true)
    (fuel : Nat) (hfuel : 2 ≤ fuel) :
    ∃ w1 w2, runOps ops w = some w1 ∧
      SVAggregator.get_result fuel w1 = some ((), w2) ∧
      w2.agg.global = (mapped ops).sum := by
  obtain ⟨w1, hrun, hr1, ht1⟩ := runOps_spec hn ops w hr hv
  obtain ⟨w2, hget, _, hg2, _⟩ := get_result_spec hr1 hn fuel hfuel
  refine ⟨w1, w2, hrun, hget, ?_⟩
  have h0 : total n w = 0 := by
    rw [total_of_drained hfresh (fun j hj => by
      obtain ⟨h, hh, hc, _⟩ := hbuf j hj
      exact ⟨h, hh, hc⟩), hg]
  rw [hg2, ht1, h0, zero_add]

set_option maxRecDepth 100000 in
/-- Scenario A as an instance of C1: 4 workers each map 1 a hundred times and submit once; after
`get_result()` the value of `global` is 400. -/
theorem conservation_witness :
    ∃ w1 w2, runOps scenarioA (startWorld 4 ON) = some w1 ∧
      SVAggregator.get_result 2 w1 = some ((), w2) ∧
      w2.agg.global = 400 :=
  conservation 4 (by decide) (startWorld 4 ON) (by decide) rfl
    (by
      intro id hid
      interval_cases id <;> exact ⟨_, rfl, rfl, rfl⟩)
    (by
      intro id hid
      interval_cases id <;> rfl)
    scenarioA (by decide) 2 (by decide)

/-- C3 (successful publish).  For every state in which the handle at address `a` is registered
(it has a non-null aggregator pointer and slot `id` points to its `other` buffer) and
`stale(id)` is true, `submit()` succeeds; afterwards the published buffer `other` holds the old
active buffer, the active buffer `curr` is the identity, slot `id` is fresh with the same buffer
pointer (so `stale(id)` is false), and `global`, `latest_result`, the flag, the viewer, the handle
table, every other handle object and every other slot are unchanged. -/
theorem submit_publishes [Zero A] (w : World A V) (a : Nat) (h : SVAggHandle A)
    (hh : w.heap[a]? = some h) (hagg : h.agg = true)
    (hreg : ∃ item, w.agg.values[h.id]? = some item ∧ item.v = some a)
    (hst : w.agg.stale h.id = some true) :
    ∃ w1, SVAggHandle.submit a w = some w1 ∧
      w1.heap[a]? = some { curr := 0, other := h.curr, id := h.id, agg := h.agg } ∧
      w1.agg.values[h.id]? = some { v := some a, fresh := true } ∧
      w1.agg.stale h.id = some false ∧
      w1.agg.global = w.agg.global ∧
      w1.agg.latest_result = w.agg.latest_result ∧
      w1.agg.flag = w.agg.flag ∧
      w1.agg.viewer = w.agg.viewer ∧
      w1.agg.handles = w.agg.handles ∧
      w1.agg.values.length = w.agg.values.length ∧
      w1.heap.length = w.heap.length ∧
      (∀ b, b ≠ a → w1.heap[b]? = w.heap[b]?) ∧
      (∀ j, j ≠ h.id → w1.agg.values[j]? = w.agg.values[j]?) := by
  obtain ⟨item, hi, hv⟩ := hreg
  obtain ⟨item2, hi2, hf2⟩ := stale_eq_some hst
  have hitem : item2 = item := by
    rw [hi] at hi2; exact (Option.some.inj hi2).symm
  subst hitem
  have hf : item2.fresh = false := by simpa using hf2
  refine ⟨_, submit_of_stale w a h item2 hh hagg hi hf, ?_⟩
  have hslot : (w.agg.values.set h.id { v := item2.v, fresh := true })[h.id]? =
      some { v := some a, fresh := true } := by
    rw [getElem?_set_of_some _ hi, hv]
  refine ⟨?_, hslot, ?_, rfl, rfl, rfl, rfl, rfl, ?_, ?_, ?_, ?_⟩
  · rw [getElem?_set_of_some _ hh]; rfl
  · exact stale_of_getElem? { w.agg with values := _ } _ _ hslot
  · simp
  · simp
  · intro b hb
    exact List.getElem?_set_ne (Ne.symm hb)
  · intro j hj
    exact List.getElem?_set_ne (Ne.symm hj)

/-- Instance of C3 on `demoWorld`: worker 1 (stale slot, 7 in its active buffer) publishes. -/
theorem submit_publishes_witness :
    ∃ w1, SVAggHandle.submit 1 (demoWorld ON) = some w1 ∧
      w1.heap[1]? = some { curr := 0, other := 7, id := 1, agg := true } ∧
      w1.agg.values[1]? = some { v := some 1, fresh := true } ∧
      w1.agg.stale 1 = some false ∧
      w1.agg.global = 10 ∧
      w1.agg.latest_result = 10 ∧
      w1.agg.flag = ON ∧
      w1.agg.viewer = (demoWorld ON).agg.viewer ∧
      w1.agg.handles = [some 0, some 1] ∧
      w1.agg.values.length = 2 ∧
      w1.heap.length = 2 ∧
      (∀ b, b ≠ 1 → w1.heap[b]? = (demoWorld ON).heap[b]?) ∧
      (∀ j, j ≠ 1 → w1.agg.values[j]? = (demoWorld ON).agg.values[j]?) :=
  submit_publishes (demoWorld ON) 1 { curr := 7, other := 0, id := 1, agg := true }
    rfl rfl ⟨{ v := some 1, fresh := false }, rfl, rfl⟩ rfl

/-- C2 (backpressure).  Let the handle at address `a` be registered for slot `id`.  If the slot
is fresh, `submit()` on that handle returns the state unchanged: active buffer, published buffer,
freshness, `global` and `latest_result` all stay as they are.  Consequently, from a state with
the flag Armed, no fresh slot and an empty active buffer, the calls
`map(x); submit(); map(y); submit(); update()` all return, the second `submit()` changes
nothing, `global` has grown by `x` only and `y` is still in the active buffer; a further
`submit()` followed by a merge pass (`update()`) then brings `global` to the old value merged
with `x` and `y`. -/
theorem backpressure [AddMonoid A] (w : World A V) (a : Nat) (h : SVAggHandle A)
    (item : SVAggItem) (hh : w.heap[a]? = some h) (hagg : h.agg = true)
    (hi : w.agg.values[h.id]? = some item) (hv : item.v = some a) :
    (item.fresh = true → SVAggHandle.submit a w = some w) ∧
      (w.agg.flag = ON → (∀ it ∈ w.agg.values, it.fresh = false) → h.curr = 0 →
        ∀ x y : A, ∃ w1 w2 w3 w5 w6 w7,
          SVAggHandle.map a x w = some w1 ∧
          SVAggHandle.submit a w1 = some w2 ∧
          SVAggHandle.map a y w2 = some w3 ∧
          SVAggHandle.submit a w3 = some w3 ∧
          w3.update = some w5 ∧
          w5.agg.global = w.agg.global + x ∧
          (∃ h5, w5.heap[a]? = some h5 ∧ h5.curr = y) ∧
          SVAggHandle.submit a w5 = some w6 ∧
          w6.update = some w7 ∧
          w7.agg.global = w.agg.global + x + y) := by
  constructor
  · intro hf
    refine submit_of_fresh w a h hh ?_
    rw [stale_of_getElem? w.agg h.id item hi, hf]
    rfl
  · intro hfl hs hc x y
    have e1 := map_eq w a h x hh
    have hh1 : (w.heap.set a { h with curr := h.curr + x })[a]? =
        some { h with curr := h.curr + x } := getElem?_set_of_some _ hh
    obtain ⟨w2, w3, hp3, e2, e3, e4, e5, hh3⟩ :=
      publish_map_blocked_update w.agg _ a { h with curr := h.curr + x } item y hh1 hagg hi hv
        hs hfl
    obtain ⟨w6, w7, e6, e7, e8⟩ :=
      publish_update
        { w.agg with
          global := w.agg.global + (h.curr + x)
          latest_result := w.agg.viewer (w.agg.global + (h.curr + x)) }
        hp3 a { curr := 0 + y, other := h.curr + x, id := h.id, agg := h.agg } item hh3 hagg hi hv
        hs hfl
    refine ⟨_, w2, w3, _, w6, w7, e1, e2, e3, e4, e5, ?_, ⟨_, hh3, ?_⟩, e6, e7, ?_⟩
    · simp [hc]
    · simp
    · rw [e8]
      simp [hc]

/-- Instance of C2: on `demoWorld` the slot of worker 0 is fresh and `submit()` changes
nothing; on `startWorld 2 ON` worker 0 runs the scenario with `x = 3` and `y = 4`. -/
theorem backpressure_witness :
    SVAggHandle.submit 0 (demoWorld ON) = some (demoWorld ON) ∧
      ∃ w1 w2 w3 w5 w6 w7,
        SVAggHandle.map 0 3 (startWorld 2 ON) = some w1 ∧
        SVAggHandle.submit 0 w1 = some w2 ∧
        SVAggHandle.map 0 4 w2 = some w3 ∧
        SVAggHandle.submit 0 w3 = some w3 ∧
        w3.update = some w5 ∧
        w5.agg.global = 0 + 3 ∧
        (∃ h5, w5.heap[0]? = some h5 ∧ h5.curr = 4) ∧
        SVAggHandle.submit 0 w5 = some w6 ∧
        w6.update = some w7 ∧
        w7.agg.global = 0 + 3 + 4 :=
  ⟨(backpressure (demoWorld ON) 0 { curr := 2, other := 5, id := 0, agg := true }
      { v := some 0, fresh := true } rfl rfl rfl rfl).1 rfl,
    (backpressure (startWorld 2 ON) 0 { curr := 0, other := 0, id := 0, agg := true }
      { v := some 0, fresh := false } rfl rfl rfl rfl).2 rfl (by decide) rfl 3 4⟩

/-- C4 (merge pass postcondition).  For every state with at least one slot in which every fresh
slot points to a live buffer, `update_unchecked()` succeeds; the new `global` is the old one
merged with the published buffers of exactly the fresh slots, taken in slot order; no slot is
fresh afterwards; every slot keeps its buffer pointer; the heap of handle objects (all worker
buffers) is unchanged; and `latest_result` is the viewer applied to the new `global`.  The flag,
the viewer and the handle table are unchanged as well. -/
theorem update_unchecked_post [AddMonoid A] (w : World A V) (hne : w.agg.values ≠ [])
    (hb : ∀ item ∈ w.agg.values, item.fresh = true →
      ∃ i hd, item.v = some i ∧ w.heap[i]? = some hd) :
    ∃ w1, w.update_unchecked = some w1 ∧
      w1.agg.global = w.agg.global + (published w.heap w.agg.values).sum ∧
      (∀ item ∈ w1.agg.values, item.fresh = false) ∧
      w1.agg.values.map (fun item => item.v) = w.agg.values.map (fun item => item.v) ∧
      w1.heap = w.heap ∧
      w1.agg.latest_result = w.agg.viewer w1.agg.global ∧
      w1.agg.flag = w.agg.flag ∧
      w1.agg.viewer = w.agg.viewer ∧
      w1.agg.handles = w.agg.handles := by
  have heq := update_unchecked_eq w.heap w.agg hne hb
  have hw : w.update_unchecked = some
      { w with agg :=
        { w.agg with
          global := w.agg.global + (published w.heap w.agg.values).sum
          values := w.agg.values.map clearFresh
          latest_result := w.agg.viewer (w.agg.global + (published w.heap w.agg.values).sum) } } := by
    simp only [World.update_unchecked, heq]
  refine ⟨_, hw, rfl, ?_, ?_, rfl, rfl, rfl, rfl, rfl⟩
  · intro item hm
    simp only [List.mem_map] at hm
    obtain ⟨x, _, rfl⟩ := hm
    rfl
  · simp [clearFresh, Function.comp_def]

/-- Instance of C4 on `demoWorld`: only worker 0 has a fresh slot, holding 5. -/
theorem update_unchecked_post_witness :
    ∃ w1, (demoWorld WORKING).update_unchecked = some w1 ∧
      w1.agg.global = 10 + [5].sum ∧
      (∀ item ∈ w1.agg.values, item.fresh = false) ∧
      w1.agg.values.map (fun item => item.v) = [some 0, some 1] ∧
      w1.heap = (demoWorld WORKING).heap ∧
      w1.agg.latest_result = (demoWorld WORKING).agg.viewer w1.agg.global ∧
      w1.agg.flag = WORKING ∧
      w1.agg.viewer = (demoWorld WORKING).agg.viewer ∧
      w1.agg.handles = [some 0, some 1] :=
  update_unchecked_post (demoWorld WORKING) (by simp [demoWorld])
    (by
      intro item hm hf
      simp only [demoWorld, List.mem_cons, List.mem_singleton, List.not_mem_nil, or_false] at hm
      rcases hm with rfl | rfl
      · exact ⟨0, _, rfl, rfl⟩
      · simp at hf)

/-- C5 (`update()` without ownership).  For every state whose flag is not Armed (`ON()`), that is
Merging or Done, `update()` returns and leaves the whole state as it was: `global`, every slot,
`latest_result`, the flag and all worker buffers. -/
theorem update_not_armed [Add A] (w : World A V) (h : w.agg.flag ≠ ON) :
    w.update = some w :=
  update_of_not_armed w h

/-- Instance of C5 on `demoWorld` with the flag Merging: slot 0 stays fresh and unmerged. -/
theorem update_not_armed_witness : (demoWorld WORKING).update = some (demoWorld WORKING) :=
  update_not_armed (demoWorld WORKING) (by simp [demoWorld])

/-- C6 (`update()` from Armed is one merge pass).  For every state whose flag is Armed, `update()`
run without interference gives exactly the result of `update_unchecked()` on that state (the
same `global`, slots, `latest_result`, or the same failure), the flag is Armed on return, and
the call does return whenever there is at least one slot and every fresh slot points to a live
buffer. -/
theorem update_armed [Add A] (w : World A V) (h : w.agg.flag = ON) :
    w.update = w.update_unchecked ∧
      (∀ w1, w.update = some w1 → w1.agg.flag = ON) ∧
      (w.agg.values ≠ [] →
        (∀ item ∈ w.agg.values, item.fresh = true →
          ∃ i hd, item.v = some i ∧ w.heap[i]? = some hd) →
        ∃ w1, w.update = some w1) := by
  have key : w.update = w.update_unchecked := update_of_armed w h
  refine ⟨key, ?_, ?_⟩
  · intro w1 hw
    rw [key] at hw
    simp only [World.update_unchecked] at hw
    cases hu : w.agg.update_unchecked w.heap with
    | none => rw [hu] at hw; cases hw
    | some s1 =>
      rw [hu] at hw
      cases hw
      simp only
      rw [update_unchecked_flag w.heap w.agg s1 hu, h]
  · intro hne hb
    rw [key]
    obtain ⟨g1, hg1⟩ := update_unchecked_ok w.heap w.agg hne hb
    simp only [World.update_unchecked, hg1]
    exact ⟨_, rfl⟩

/-- Instance of C6 on `demoWorld` with the flag Armed. -/
theorem update_armed_witness :
    (demoWorld ON).update = (demoWorld ON).update_unchecked ∧
      (∀ w1, (demoWorld ON).update = some w1 → w1.agg.flag = ON) ∧
      ((demoWorld ON).agg.values ≠ [] →
        (∀ item ∈ (demoWorld ON).agg.values, item.fresh = true →
          ∃ i hd, item.v = some i ∧ (demoWorld ON).heap[i]? = some hd) →
        ∃ w1, (demoWorld ON).update = some w1) :=
  update_armed (demoWorld ON) rfl

/-- C7, the code at the failing input.  Called with the flag Merging, the first
compare-and-swap of `get_result()` fails and stores Merging in `expected`; the second one then
finds the flag equal to `expected`, succeeds and replaces Merging by Done.  So the spin loop,
run without interference, exits after two iterations from Merging (and likewise from Done), and
`get_result()` goes on to run its merge passes: on `demoWorld WORKING` it returns with the flag
Done and `global` grown from 10 to 24. -/
theorem get_result_takes_over_merging :
    compare_exchange WORKING ON OFF = (false, WORKING, WORKING) ∧
      compare_exchange WORKING WORKING OFF = (true, OFF, WORKING) ∧
      spin 2 WORKING ON = some OFF ∧
      spin 2 OFF ON = some OFF ∧
      ∃ w1, SVAggregator.get_result 2 (demoWorld WORKING) = some ((), w1) ∧
        w1.agg.flag = OFF ∧ w1.agg.global = 24 :=
  ⟨rfl, rfl, rfl, rfl, _, rfl, rfl, rfl⟩

/-- C8, the code at the failing input.  From the flag Armed with two idle threads, the
schedule `raceSchedule` is enabled step by step and ends with both threads inside
`update_unchecked`: thread 0 through `update()` (it moved the flag from Armed to Merging),
thread 1 through `get_result()`, whose second compare-and-swap found the flag Merging, equal to
the value its failed first attempt had stored in `expected`, and replaced it by Done. -/
theorem two_threads_in_update_unchecked :
    Sys.run raceSchedule (Sys.init 2) =
        some { flag := OFF,
               threads := [{ pc := Pc.updateMerge, expected := ON },
                           { pc := Pc.getMerge1, expected := WORKING }] } ∧
      Sys.run (raceSchedule.take 4) (Sys.init 2) =
        some { flag := WORKING,
               threads := [{ pc := Pc.updateMerge, expected := ON },
                           { pc := Pc.getSpin, expected := WORKING }] } ∧
      ∃ s, Sys.run raceSchedule (Sys.init 2) = some s ∧
        (s.threads.filter Thread.inMerge).length = 2 := by
  refine ⟨by decide, by decide, _, rfl, by decide⟩

/-- C9 as stated fails: `get_result()` is declared `void`.  It returns the same (unit) value on
`demoWorld ON` and on `startWorld 1 ON`, although the views of the drained accumulators are 24
and 0; hence no reading of the returned value gives the viewer applied to `global`. -/
theorem get_result_returns_no_view :
    (∃ w1 w2, SVAggregator.get_result 2 (demoWorld ON) = some ((), w1) ∧
        SVAggregator.get_result 2 (startWorld 1 ON) = some ((), w2) ∧
        w1.agg.viewer w1.agg.global = 24 ∧ w2.agg.viewer w2.agg.global = 0) ∧
      ¬ ∃ decode : Unit → Nat, ∀ (w w1 : World Nat Nat) (r : Unit),
          SVAggregator.get_result 2 w = some (r, w1) → decode r = w1.agg.viewer w1.agg.global := by
  have h1 : ∃ w1, SVAggregator.get_result 2 (demoWorld ON) = some ((), w1) ∧
      w1.agg.viewer w1.agg.global = 24 := ⟨_, rfl, rfl⟩
  have h2 : ∃ w2, SVAggregator.get_result 2 (startWorld 1 ON) = some ((), w2) ∧
      w2.agg.viewer w2.agg.global = 0 := ⟨_, rfl, rfl⟩
  obtain ⟨w1, e1, v1⟩ := h1
  obtain ⟨w2, e2, v2⟩ := h2
  refine ⟨⟨w1, w2, e1, e2, v1, v2⟩, ?_⟩
  rintro ⟨decode, hd⟩
  have d1 := hd _ _ _ e1
  have d2 := hd _ _ _ e2
  rw [v1] at d1
  rw [v2] at d2
  rw [d1] at d2
  exact absurd d2 (by decide)

/-- C9, amended.  `get_result()` returns no value.  On a state with all `n ≥ 1` handles
registered, run without interference, it returns, stage by stage: the spin loop ends with the
flag Done, the first merge pass gives the aggregator `s1`, the forced `submit()` calls on every
handle give the state `w2`, and the second merge pass, `update_unchecked` on `w2`, gives the
final state `w3`.  `latest_result` then holds the viewer applied to `global` as that second
pass left it. -/
theorem get_result_stores_view [Add A] [Zero A] (n : Nat) (hn : 1 ≤ n) (w : World A V)
    (hr : Registered n w) (fuel : Nat) (hfuel : 2 ≤ fuel) :
    ∃ (s1 : SVAggregator A V) (w2 w3 : World A V),
      spin fuel w.agg.flag ON = some OFF ∧
      SVAggregator.update_unchecked w.heap { w.agg with flag := OFF } = some s1 ∧
      submitAll s1.handles { agg := s1, heap := w.heap } = some w2 ∧
      w2.update_unchecked = some w3 ∧
      SVAggregator.get_result fuel w = some ((), w3) ∧
      w3.agg.latest_result = w3.agg.viewer w3.agg.global ∧
      w3.agg.viewer = w.agg.viewer := by
  obtain ⟨s1, w2, s3, hu1, hs2, hu3, hget, _, _, _, _, hl3, hv3, _⟩ :=
    get_result_reg hr hn fuel hfuel
  have hspin : spin fuel w.agg.flag ON = some OFF := by
    obtain ⟨k, rfl⟩ : ∃ k, fuel = k + 2 := ⟨fuel - 2, by omega⟩
    exact spin_two k w.agg.flag
  refine ⟨s1, w2, { agg := s3, heap := w2.heap }, hspin, hu1, hs2, ?_, hget, hl3, hv3⟩
  simp only [World.update_unchecked, hu3]

/-- Instance of the amended C9 on `demoWorld` (two registered workers, one slot fresh). -/
theorem get_result_stores_view_witness :
    ∃ (s1 : SVAggregator Nat Nat) (w2 w3 : World Nat Nat),
      spin 2 (demoWorld ON).agg.flag ON = some OFF ∧
      SVAggregator.update_unchecked (demoWorld ON).heap { (demoWorld ON).agg with flag := OFF } =
        some s1 ∧
      submitAll s1.handles { agg := s1, heap := (demoWorld ON).heap } = some w2 ∧
      w2.update_unchecked = some w3 ∧
      SVAggregator.get_result 2 (demoWorld ON) = some ((), w3) ∧
      w3.agg.latest_result = w3.agg.viewer w3.agg.global ∧
      w3.agg.viewer = (demoWorld ON).agg.viewer :=
  get_result_stores_view 2 (by decide) (demoWorld ON) (by decide) 2 (by decide)

/-- C10 (aggregator `reset()`).  For every state, after `SVAggregator::reset()` `global` is the
accumulator identity and `latest_result` is the default View; the flag is Armed if it was Done
and is otherwise what it was; the slots (pointer and freshness), the handle table, the viewer
and all worker buffers are unchanged. -/
theorem reset_post [Zero A] [Inhabited V] (w : World A V) :
    w.reset.agg.global = 0 ∧
      w.reset.agg.latest_result = default ∧
      w.reset.agg.flag = (if w.agg.flag = OFF then ON else w.agg.flag) ∧
      w.reset.agg.values = w.agg.values ∧
      w.reset.agg.handles = w.agg.handles ∧
      w.reset.agg.viewer = w.agg.viewer ∧
      w.reset.heap = w.heap := by
  refine ⟨rfl, rfl, ?_, rfl, rfl, rfl, rfl⟩
  simp only [World.reset, SVAggregator.reset, compare_exchange]
  split <;> rfl

/-- C13 as stated fails for `SVAggHandle::reset`.  In `demoWorld` slot 0 is fresh and points to
the published buffer of the handle at address 0, which holds 5; `reset()` on that handle
returns, leaves the slot fresh and overwrites the published buffer with the identity. -/
theorem handle_reset_overwrites_published :
    (demoWorld ON).agg.values[0]? = some { v := some 0, fresh := true } ∧
      (demoWorld ON).heap[0]? = some { curr := 2, other := 5, id := 0, agg := true } ∧
      ∃ w1, SVAggHandle.reset 0 (demoWorld ON) = some w1 ∧
        w1.agg.values[0]? = some { v := some 0, fresh := true } ∧
        w1.heap[0]? = some { curr := 0, other := 0, id := 0, agg := true } :=
  ⟨rfl, rfl, _, rfl, rfl, rfl⟩

/-- C13, amended.  Let slot `id` be fresh and point to the published buffer of the handle at
address `a`.  Then `map(v)` on that handle returns and leaves the published buffer and the
aggregator (so the slot) as they are, and `submit()` returns the state unchanged: `submit()`
writes the published buffer only while the slot is not fresh.  `SVAggHandle::reset()` sets both
buffers to the identity whatever the freshness of the slot, and leaves the slot as it is. -/
theorem published_kept_while_fresh [Add A] [Zero A] (w : World A V) (a : Nat)
    (h : SVAggHandle A) (item : SVAggItem) (hh : w.heap[a]? = some h)
    (hi : w.agg.values[h.id]? = some item) (_hv : item.v = some a)
    (hf : item.fresh = true) :
    (∀ v : A, ∃ w1, SVAggHandle.map a v w = some w1 ∧
        w1.heap[a]? = some { h with curr := h.curr + v } ∧ w1.agg = w.agg) ∧
      SVAggHandle.submit a w = some w ∧
      ∃ w1, SVAggHandle.reset a w = some w1 ∧
        w1.heap[a]? = some { h with curr := 0, other := 0 } ∧ w1.agg = w.agg := by
  refine ⟨?_, ?_, ?_⟩
  · intro v
    exact ⟨_, map_eq w a h v hh, getElem?_set_of_some _ hh, rfl⟩
  · refine submit_of_fresh w a h hh ?_
    rw [stale_of_getElem? w.agg h.id item hi, hf]
    rfl
  · refine ⟨{ w with heap := w.heap.set a { h with curr := 0, other := 0 } }, ?_,
      getElem?_set_of_some _ hh, rfl⟩
    simp only [SVAggHandle.reset, hh]

/-- Instance of the amended C13 on `demoWorld`, for worker 0 whose slot is fresh. -/
theorem published_kept_while_fresh_witness :
    (∀ v : Nat, ∃ w1, SVAggHandle.map 0 v (demoWorld ON) = some w1 ∧
        w1.heap[0]? = some { curr := 2 + v, other := 5, id := 0, agg := true } ∧
        w1.agg = (demoWorld ON).agg) ∧
      SVAggHandle.submit 0 (demoWorld ON) = some (demoWorld ON) ∧
      ∃ w1, SVAggHandle.reset 0 (demoWorld ON) = some w1 ∧
        w1.heap[0]? = some { curr := 0, other := 0, id := 0, agg := true } ∧
        w1.agg = (demoWorld ON).agg :=
  published_kept_while_fresh (demoWorld ON) 0 { curr := 2, other := 5, id := 0, agg := true }
    { v := some 0, fresh := true } rfl rfl rfl rfl

/-- C15 (two passes are necessary).  Construction and registration for one worker give
`startWorld 1 ON`; after `map(5)` the worker holds 5 in its active buffer, unpublished.  A
single `update_unchecked()` on that state leaves `global` at 0, short of the merge 5 of the
mapped values, while `get_result()` on the same state leaves `global` at 5. -/
theorem two_passes_needed :
    ∃ w w1 w2 : World Nat Nat,
      setup 1 (fun g => g) ON = some (startWorld 1 ON) ∧
      runOps [Op.map 0 5] (startWorld 1 ON) = some w ∧
      handleOf w 0 = some { curr := 5, other := 0, id := 0, agg := true } ∧
      freshOf w 0 = false ∧
      (mapped [Op.map 0 (5 : Nat)]).sum = 5 ∧
      w.update_unchecked = some w1 ∧ w1.agg.global = 0 ∧
      SVAggregator.get_result 2 w = some ((), w2) ∧ w2.agg.global = 5 :=
  ⟨_, _, _, rfl, rfl, rfl, rfl, rfl, rfl, rfl, rfl, rfl⟩

/-- C17 (a merge pass is idempotent).  For every state, `update_unchecked()` followed at once by
`update_unchecked()` gives what a single `update_unchecked()` gives (the same state, or the same
failure); the second pass returns the state the first one left, so a published buffer is added
to `global` once only, and neither pass changes the contents of any worker buffer.  The first
pass does return when there is a slot and every fresh slot points to a live buffer. -/
theorem update_unchecked_twice [Add A] (w : World A V) :
    (w.update_unchecked).bind World.update_unchecked = w.update_unchecked ∧
      (∀ w1, w.update_unchecked = some w1 →
        w1.update_unchecked = some w1 ∧ w1.heap = w.heap) ∧
      (w.agg.values ≠ [] →
        (∀ item ∈ w.agg.values, item.fresh = true →
          ∃ i hd, item.v = some i ∧ w.heap[i]? = some hd) →
        ∃ w1, w.update_unchecked = some w1) := by
  have key : ∀ w1, w.update_unchecked = some w1 →
      w1.update_unchecked = some w1 ∧ w1.heap = w.heap := by
    intro w1 hw
    simp only [World.update_unchecked] at hw
    cases hu : w.agg.update_unchecked w.heap with
    | none => rw [hu] at hw; cases hw
    | some s1 =>
      rw [hu] at hw
      cases hw
      refine ⟨?_, rfl⟩
      simp only [World.update_unchecked, update_unchecked_idem w.heap w.agg s1 hu]
  refine ⟨?_, key, ?_⟩
  · cases hw : w.update_unchecked with
    | none => rfl
    | some w1 => exact (key w1 hw).1
  · intro hne hb
    obtain ⟨g1, hg1⟩ := update_unchecked_ok w.heap w.agg hne hb
    simp only [World.update_unchecked, hg1]
    exact ⟨_, rfl⟩

/-- Instance of C17 on `demoWorld`: the first pass adds the published 5 to 10, the second pass
changes nothing, and the published buffer still holds 5. -/
theorem update_unchecked_twice_witness :
    ∃ w1, (demoWorld ON).update_unchecked = some w1 ∧
      w1.update_unchecked = some w1 ∧ w1.agg.global = 15 ∧
      w1.heap[0]? = some { curr := 2, other := 5, id := 0, agg := true } :=
  ⟨_, rfl, ((update_unchecked_twice (demoWorld ON)).2.1 _ rfl).1, rfl, rfl⟩

/-- C16 (drain postcondition).  On a state with all `n ≥ 1` handles registered, `get_result()`
run without interference returns.  Its first merge pass (giving `s1`) leaves every slot stale;
every forced `submit()` then publishes: in the state `w2` after the loop every slot is fresh and
holds what the worker's active buffer held, none is held back; the second pass gives the final
state `w3`, in which every slot is stale, every active buffer is the identity, `latest_result`
is the viewer applied to `global` and the flag is Done.  A following `update()` changes nothing,
and `reset()` arms the flag again. -/
theorem get_result_drains [Add A] [Zero A] [Inhabited V] (n : Nat) (hn : 1 ≤ n)
    (w : World A V) (hr : Registered n w) (fuel : Nat) (hfuel : 2 ≤ fuel) :
    ∃ (s1 : SVAggregator A V) (w2 w3 : World A V),
      SVAggregator.update_unchecked w.heap { w.agg with flag := OFF } = some s1 ∧
      submitAll s1.handles { agg := s1, heap := w.heap } = some w2 ∧
      w2.update_unchecked = some w3 ∧
      SVAggregator.get_result fuel w = some ((), w3) ∧
      (∀ j, j < n → freshOf { agg := s1, heap := w.heap } j = false) ∧
      (∀ j, j < n → ∃ h, handleOf w j = some h ∧ freshOf w2 j = true ∧
        handleOf w2 j = some (swapReset h)) ∧
      (∀ j, j < n → freshOf w3 j = false) ∧
      (∀ j, j < n → activeEmpty w3 j) ∧
      w3.agg.latest_result = w3.agg.viewer w3.agg.global ∧
      w3.agg.flag = OFF ∧
      w3.update = some w3 ∧
      w3.reset.agg.flag = ON := by
  obtain ⟨s1, w2, s3, hu1, hs2, hu3, hget, hr1, hr2, hr3, hf3, hl3, hv3, hfr3, hempty⟩ :=
    get_result_reg hr hn fuel hfuel
  obtain ⟨_, hs1⟩ := update_unchecked_some w.heap _ s1 hu1
  have hv1 : s1.values = w.agg.values.map clearFresh := by rw [hs1]
  have hh1 : s1.handles = w.agg.handles := by rw [hs1]
  have hst1 : ∀ j, freshOf { agg := s1, heap := w.heap } j = false :=
    fun j => freshOf_clear w s1 hv1 j
  have hpub := (submitAll_publishes { agg := s1, heap := w.heap } s1.handles
    { agg := s1, heap := w.heap } w2 hr1 (handles_registered hr1)
    (fun j _ => Or.inl ⟨hst1 j, rfl⟩) hs2).2.2
  have hflag : ({ agg := s3, heap := w2.heap } : World A V).agg.flag ≠ ON := by
    show s3.flag ≠ ON
    rw [hf3]
    decide
  refine ⟨s1, w2, { agg := s3, heap := w2.heap }, hu1, hs2, ?_, hget, fun j _ => hst1 j, ?_,
    hfr3, hempty, hl3, hf3, update_of_not_armed _ hflag, ?_⟩
  · simp only [World.update_unchecked, hu3]
  · intro j hj
    obtain ⟨a, _, _, hha, _, _, _, _, _⟩ := hr1.lookup hj
    obtain ⟨hf, h0, hh0, hh2⟩ := hpub j hj (some a) (List.getElem?_mem hha) hha
    rw [handleOf_same_heap w s1 hh1 j] at hh0
    exact ⟨h0, hh0, hf, hh2⟩
  · show (compare_exchange s3.flag OFF ON).2.1 = ON
    rw [hf3]
    rfl

/-- Instance of C16 on `demoWorld` (two registered workers, one slot fresh), flag Armed. -/
theorem get_result_drains_witness :
    ∃ (s1 : SVAggregator Nat Nat) (w2 w3 : World Nat Nat),
      SVAggregator.update_unchecked (demoWorld ON).heap { (demoWorld ON).agg with flag := OFF } =
        some s1 ∧
      submitAll s1.handles { agg := s1, heap := (demoWorld ON).heap } = some w2 ∧
      w2.update_unchecked = some w3 ∧
      SVAggregator.get_result 2 (demoWorld ON) = some ((), w3) ∧
      (∀ j, j < 2 → freshOf { agg := s1, heap := (demoWorld ON).heap } j = false) ∧
      (∀ j, j < 2 → ∃ h, handleOf (demoWorld ON) j = some h ∧ freshOf w2 j = true ∧
        handleOf w2 j = some (swapReset h)) ∧
      (∀ j, j < 2 → freshOf w3 j = false) ∧
      (∀ j, j < 2 → activeEmpty w3 j) ∧
      w3.agg.latest_result = w3.agg.viewer w3.agg.global ∧
      w3.agg.flag = OFF ∧
      w3.update = some w3 ∧
      w3.reset.agg.flag = ON :=
  get_result_drains 2 (by decide) (demoWorld ON) (by decide) 2 (by decide)

/-- C12 (read consistency).  In every sequential run of calls from a registered state whose
`latest_result` agrees with the bookkeeping `snap` (after construction: no pass yet and the
default View), the run returns, and then `read_value()` on any worker's handle returns the
viewer applied to the value `global` had at the end of the most recently completed merge pass,
or the default View if no pass has completed since construction or the last aggregator
`reset()`.  A `read_value()` call leaves the whole state as it is, and `map()` and `submit()`
return without changing `latest_result`. -/
theorem read_consistency [Add A] [Zero A] [Inhabited V] (n : Nat) (hn : 1 ≤ n)
    (w : World A V) (hr : Registered n w) (snap : Option A)
    (hs : w.agg.latest_result = viewOf w.agg.viewer snap) (fuel : Nat) (hfuel : 2 ≤ fuel)
    (cs : List (Call A)) (hv : ∀ c ∈ cs, Call.valid n c = true) :
    ∃ w1 snap1, runCallsSnap fuel cs w snap = some (w1, snap1) ∧
      ∀ id, id < n → ∃ a, w1.agg.handles[id]? = some (some a) ∧
        SVAggHandle.read_value a w1 = some (viewOf w1.agg.viewer snap1) ∧
        runCall fuel w1 (Call.readValue id) = some w1 ∧
        (∀ v, ∃ w2, runCall fuel w1 (Call.map id v) = some w2 ∧
          w2.agg.latest_result = w1.agg.latest_result) ∧
        (∃ w2, runCall fuel w1 (Call.submit id) = some w2 ∧
          w2.agg.latest_result = w1.agg.latest_result) := by
  obtain ⟨w1, snap1, hrs, _, hr1, _, hl1⟩ := runCallsSnap_spec hn fuel hfuel cs w snap hr hv hs
  refine ⟨w1, snap1, hrs, ?_⟩
  intro id hid
  obtain ⟨a, h, _, hha, _, _, hhp, _, hagg⟩ := hr1.lookup hid
  have hread : SVAggHandle.read_value a w1 = some w1.agg.latest_result := by
    simp [SVAggHandle.read_value, hhp, hagg]
  refine ⟨a, hha, by rw [hread, hl1], ?_, ?_, ?_⟩
  · simp only [runCall, hha, hread]
  · intro v
    obtain ⟨w2, hrun, _, _, _, _, hon⟩ :=
      runCall_step hn hr1 fuel hfuel (Call.map id v) (by simpa [Call.valid] using hid)
    exact ⟨w2, hrun, (hon rfl).2.1⟩
  · obtain ⟨w2, hrun, _, _, _, _, hon⟩ :=
      runCall_step hn hr1 fuel hfuel (Call.submit id) (by simpa [Call.valid] using hid)
    exact ⟨w2, hrun, (hon rfl).2.1⟩

/-- Instance of C12: the run `demoCalls` from `startWorld 2 ON`, where no pass has completed. -/
theorem read_consistency_witness :
    ∃ w1 snap1, runCallsSnap 2 demoCalls (startWorld 2 ON) none = some (w1, snap1) ∧
      ∀ id, id < 2 → ∃ a, w1.agg.handles[id]? = some (some a) ∧
        SVAggHandle.read_value a w1 = some (viewOf w1.agg.viewer snap1) ∧
        runCall 2 w1 (Call.readValue id) = some w1 ∧
        (∀ v, ∃ w2, runCall 2 w1 (Call.map id v) = some w2 ∧
          w2.agg.latest_result = w1.agg.latest_result) ∧
        (∃ w2, runCall 2 w1 (Call.submit id) = some w2 ∧
          w2.agg.latest_result = w1.agg.latest_result) :=
  read_consistency 2 (by decide) (startWorld 2 ON) (by decide) none rfl 2 (by decide)
    demoCalls (by decide)

/-- C14 (construction arms the aggregator).  After `construct(n, viewer)` there are `n` slots,
none fresh and none bound to a buffer, `latest_result` is the default View and the flag is
Armed (the initialiser `{false, false}` read as the spec does, see `initialFlag`).  Once the
handles are registered, and after any calls on the handles, a first `update()` takes ownership
and performs a merge pass: it gives what `update_unchecked()` gives, `global` grows by the
published buffers of the fresh slots, no slot is fresh afterwards and the flag is Armed
again. -/
theorem construct_arms [AddMonoid A] [Inhabited V] (n : Nat) (hn : 1 ≤ n) (vf : A → V)
    (fuel : Nat) (hfuel : 2 ≤ fuel) (cs : List (Call A))
    (hv : ∀ c ∈ cs, Call.valid n c = true ∧ Call.onHandle c = true) :
    (SVAggregator.construct n vf initialFlag : SVAggregator A V).values.length = n ∧
      (∀ item ∈ (SVAggregator.construct n vf initialFlag : SVAggregator A V).values,
        item.fresh = false ∧ item.v = none) ∧
      (SVAggregator.construct n vf initialFlag : SVAggregator A V).latest_result = default ∧
      (SVAggregator.construct n vf initialFlag : SVAggregator A V).flag = ON ∧
      ∃ w0 w w1 : World A V, setup n vf initialFlag = some w0 ∧ Registered n w0 ∧
        runCalls fuel cs w0 = some w ∧ w.agg.flag = ON ∧
        w.update = w.update_unchecked ∧ w.update = some w1 ∧
        w1.agg.global = w.agg.global + (published w.heap w.agg.values).sum ∧
        (∀ item ∈ w1.agg.values, item.fresh = false) ∧
        w1.agg.flag = ON := by
  refine ⟨by simp [SVAggregator.construct], ?_, rfl, rfl, ?_⟩
  · intro item hm
    have := List.eq_of_mem_replicate hm
    rw [this]
    exact ⟨rfl, rfl⟩
  · obtain ⟨w0, hs0, hr0, hf0, _⟩ := setup_spec n vf initialFlag
    obtain ⟨w, hrun, hrw, hfw, _⟩ := runCalls_onHandle hn fuel hfuel cs w0 hr0 hv
    have hon : w.agg.flag = ON := by rw [hfw, hf0]; rfl
    have hb : ∀ item ∈ w.agg.values, item.fresh = true →
        ∃ i hd, item.v = some i ∧ w.heap[i]? = some hd :=
      fun item hm _ => hrw.slots_bound item hm
    have hu := update_unchecked_eq w.heap w.agg (hrw.values_ne hn) hb
    have hupd : w.update = some
        { w with agg :=
          { w.agg with
            global := w.agg.global + (published w.heap w.agg.values).sum
            values := w.agg.values.map clearFresh
            latest_result :=
              w.agg.viewer (w.agg.global + (published w.heap w.agg.values).sum) } } := by
      rw [update_of_armed w hon]
      simp only [World.update_unchecked, hu]
    exact ⟨w0, w, _, hs0, hr0, hrun, hon, update_of_armed w hon, hupd, rfl,
      clearFresh_stale w.agg.values, hon⟩

/-- Instance of C14: two workers, the calls `demoHandleCalls` before the first `update()`. -/
theorem construct_arms_witness :
    (SVAggregator.construct 2 (fun g : Nat => g) initialFlag :
        SVAggregator Nat Nat).values.length = 2 ∧
      (∀ item ∈ (SVAggregator.construct 2 (fun g : Nat => g) initialFlag :
          SVAggregator Nat Nat).values, item.fresh = false ∧ item.v = none) ∧
      (SVAggregator.construct 2 (fun g : Nat => g) initialFlag :
        SVAggregator Nat Nat).latest_result = default ∧
      (SVAggregator.construct 2 (fun g : Nat => g) initialFlag :
        SVAggregator Nat Nat).flag = ON ∧
      ∃ w0 w w1 : World Nat Nat, setup 2 (fun g : Nat => g) initialFlag = some w0 ∧
        Registered 2 w0 ∧
        runCalls 2 demoHandleCalls w0 = some w ∧ w.agg.flag = ON ∧
        w.update = w.update_unchecked ∧ w.update = some w1 ∧
        w1.agg.global = w.agg.global + (published w.heap w.agg.values).sum ∧
        (∀ item ∈ w1.agg.values, item.fresh = false) ∧
        w1.agg.flag = ON :=
  construct_arms 2 (by decide) (fun g : Nat => g) 2 (by decide) demoHandleCalls (by decide)

/-- C18 (assertions never fail on reachable states).  For every worker count `n ≥ 1`, whatever
value the constructor gives the flag: construction followed by `register_handle` for all ids
returns, and every sequence of calls on workers below `n` then returns (no assertion fails, no
index is out of range, no null pointer is used).  In the state reached there are `n` slots and
`n` handle pointers, the slot vector is not empty, every slot (fresh or not) points to a live
buffer, namely the published buffer of the handle of its own worker, and whatever call comes
next returns and turns slot `j` from stale to fresh only if it is the `submit()` of
worker `j`. -/
theorem assertions_hold [Add A] [Zero A] [Inhabited V] (n : Nat) (hn : 1 ≤ n) (vf : A → V)
    (flag0 : flag_t) (fuel : Nat) (hfuel : 2 ≤ fuel) (cs : List (Call A))
    (hv : ∀ c ∈ cs, Call.valid n c = true) :
    ∃ w0 w : World A V, setup n vf flag0 = some w0 ∧ runCalls fuel cs w0 = some w ∧
      w.agg.values.length = n ∧ w.agg.handles.length = n ∧ w.agg.values ≠ [] ∧
      (∀ item ∈ w.agg.values, ∃ i hd, item.v = some i ∧ w.heap[i]? = some hd) ∧
      (∀ id, id < n → ∃ a h item, w.agg.handles[id]? = some (some a) ∧
        w.agg.values[id]? = some item ∧ item.v = some a ∧ w.heap[a]? = some h ∧
        h.id = id ∧ h.agg = true) ∧
      (∀ c, Call.valid n c = true → ∃ w1, runCall fuel w c = some w1 ∧
        ∀ j, j < n → freshOf w j = false → freshOf w1 j = true → c = Call.submit j) := by
  obtain ⟨w0, hs0, hr0, _, _, hl0, _⟩ := setup_spec n vf flag0
  obtain ⟨w, _, _, hrun, hrw, _⟩ :=
    runCallsSnap_spec hn fuel hfuel cs w0 none hr0 hv (by rw [hl0]; rfl)
  refine ⟨w0, w, hs0, hrun, hrw.1, hrw.2.1, hrw.values_ne hn, hrw.slots_bound,
    fun id hid => hrw.lookup hid, ?_⟩
  intro c hc
  obtain ⟨w1, hrun1, _, _, _, hfresh, _⟩ := runCall_step hn hrw fuel hfuel c hc
  exact ⟨w1, hrun1, hfresh⟩

/-- Instance of C18: two workers, the flag constructed as Done, the run `demoCalls`. -/
theorem assertions_hold_witness :
    ∃ w0 w : World Nat Nat, setup 2 (fun g : Nat => g) OFF = some w0 ∧
      runCalls 2 demoCalls w0 = some w ∧
      w.agg.values.length = 2 ∧ w.agg.handles.length = 2 ∧ w.agg.values ≠ [] ∧
      (∀ item ∈ w.agg.values, ∃ i hd, item.v = some i ∧ w.heap[i]? = some hd) ∧
      (∀ id, id < 2 → ∃ a h item, w.agg.handles[id]? = some (some a) ∧
        w.agg.values[id]? = some item ∧ item.v = some a ∧ w.heap[a]? = some h ∧
        h.id = id ∧ h.agg = true) ∧
      (∀ c, Call.valid 2 c = true → ∃ w1, runCall 2 w c = some w1 ∧
        ∀ j, j < 2 → freshOf w j = false → freshOf w1 j = true → c = Call.submit j) :=
  assertions_hold 2 (by decide) (fun g : Nat => g) OFF 2 (by decide) demoCalls (by decide)

/-- C11 as stated fails: `SVAggregator::reset()` does not touch the worker buffers.  The states
`startWorld 1 ON` and `pendingWorld` differ only in the active buffer of worker 0 (a contribution
made before the call: `pendingWorld` is `startWorld 1 ON` after `map(5)`); after `reset()` the
same sequence, a single `get_result()`, leaves `global` and `latest_result` at 0 in the one run
and at 5 in the other, while nothing was mapped after the reset. -/
theorem reset_keeps_pending :
    pendingWorld.agg = (startWorld 1 ON).agg ∧
      (startWorld 1 ON).heap = [{ curr := 0, other := 0, id := 0, agg := true }] ∧
      pendingWorld.heap = [{ curr := 5, other := 0, id := 0, agg := true }] ∧
      runOps [Op.map 0 5] (startWorld 1 ON) = some pendingWorld ∧
      (mappedBy [(Call.getResult : Call Nat)]).sum = 0 ∧
      ∃ v1 v2, runCalls 2 [Call.getResult] (startWorld 1 ON).reset = some v1 ∧
        runCalls 2 [Call.getResult] pendingWorld.reset = some v2 ∧
        v1.agg.global = 0 ∧ v2.agg.global = 5 ∧
        v1.agg.latest_result = 0 ∧ v2.agg.latest_result = 5 :=
  ⟨rfl, rfl, rfl, rfl, rfl, _, _, rfl, rfl, rfl, rfl, rfl, rfl⟩

/-- C11, amended.  Take two states with all `n ≥ 1` handles registered that differ only in
`global`, in `latest_result` and in the contents of published buffers whose slot is not fresh:
they have the same slots, handle table, flag and viewer, every worker has the same active buffer
in both and, where its slot is fresh, the same published buffer.  After `reset()` the same
sequence of calls returns in both runs and yields the same `global` and `latest_result`.  If
moreover, at the reset, no slot is fresh and every active buffer is the identity (the state
`get_result()` leaves), then after a sequence of `map`, `submit`, `update` and `get_result`
calls a terminal `get_result()` leaves in `global` the sum of only the values mapped after the
reset (commutative monoid accumulator). -/
theorem epoch_isolation [AddCommMonoid A] [Inhabited V] (n : Nat) (hn : 1 ≤ n)
    (w1 w2 : World A V) (hr1 : Registered n w1) (hr2 : Registered n w2)
    (hvals : w1.agg.values = w2.agg.values) (hhandles : w1.agg.handles = w2.agg.handles)
    (hflag : w1.agg.flag = w2.agg.flag) (hviewer : w1.agg.viewer = w2.agg.viewer)
    (hbuf : ∀ id, id < n → ∃ h1 h2, handleOf w1 id = some h1 ∧ handleOf w2 id = some h2 ∧
      h1.curr = h2.curr ∧ (freshOf w1 id = true → h1.other = h2.other))
    (fuel : Nat) (hfuel : 2 ≤ fuel) (cs : List (Call A))
    (hv : ∀ c ∈ cs, Call.valid n c = true) :
    (∃ v1 v2, runCalls fuel cs w1.reset = some v1 ∧ runCalls fuel cs w2.reset = some v2 ∧
        v1.agg.global = v2.agg.global ∧ v1.agg.latest_result = v2.agg.latest_result) ∧
      ((∀ j, j < n → freshOf w1 j = false) → (∀ j, j < n → activeEmpty w1 j) →
        (∀ c ∈ cs, Call.aggregates c = true) →
        ∃ v1 v3, runCalls fuel cs w1.reset = some v1 ∧
          SVAggregator.get_result fuel v1 = some ((), v3) ∧
          v3.agg.global = (mappedBy cs).sum) := by
  have hrr1 : Registered n w1.reset := hr1
  have hrr2 : Registered n w2.reset := hr2
  constructor
  · have hagg : w1.reset.agg = w2.reset.agg := by
      show w1.agg.reset = w2.agg.reset
      simp only [SVAggregator.reset, hvals, hhandles, hflag, hviewer]
    obtain ⟨v1, v2, e1, e2, hsv⟩ :=
      sameView_runCalls hn fuel hfuel cs w1.reset w2.reset hrr1 hrr2 ⟨hagg, hbuf⟩ hv
    exact ⟨v1, v2, e1, e2, by rw [hsv.1], by rw [hsv.1]⟩
  · intro hfr hem hag
    have h0 : total n w1.reset = 0 := by
      rw [total_of_drained (w := w1.reset) hfr hem]
      rfl
    obtain ⟨v1, e1, hrv1, ht1⟩ :=
      runCalls_total hn fuel hfuel cs w1.reset hrr1 (fun c hc => ⟨hv c hc, hag c hc⟩)
    obtain ⟨v3, hget, _, hg3, _⟩ := get_result_spec hrv1 hn fuel hfuel
    exact ⟨v1, v3, e1, hget, by rw [hg3, ht1, h0, zero_add]⟩

/-- Instance of the amended C11: `drainedWorld` and `startWorld 2 OFF` differ in `global`, in
`latest_result` and in stale published buffers; the run is `epochCalls`. -/
theorem epoch_isolation_witness :
    (∃ v1 v2, runCalls 2 epochCalls drainedWorld.reset = some v1 ∧
        runCalls 2 epochCalls (startWorld 2 OFF).reset = some v2 ∧
        v1.agg.global = v2.agg.global ∧ v1.agg.latest_result = v2.agg.latest_result) ∧
      ∃ v1 v3, runCalls 2 epochCalls drainedWorld.reset = some v1 ∧
        SVAggregator.get_result 2 v1 = some ((), v3) ∧
        v3.agg.global = (mappedBy epochCalls).sum :=
  have h := epoch_isolation 2 (by decide) drainedWorld (startWorld 2 OFF) (by decide)
    (by decide) rfl rfl rfl rfl
    (by
      intro id hid
      interval_cases id <;> exact ⟨_, _, rfl, rfl, rfl, fun hf => absurd hf (by decide)⟩)
    2 (by decide) epochCalls (by decide)
  ⟨h.1, h.2
    (by
      intro j hj
      interval_cases j <;> rfl)
    (by
      intro j hj
      interval_cases j <;> exact ⟨_, rfl, rfl⟩)
    (by decide)⟩

end Claims

end Peregrine
